import Mathlib

/-!
Verification of the Neo-Proxy multi-tenant reverse-proxy gateway.

This file gives a shallow embedding of the tenant resolution, proxy
registry, upgrade dispatch, error handling, slug sanitization and
content rewriting logic of the gateway, translated from the JavaScript
sources (routeManager.js, proxyFactory.js, assetsService.js,
siteCacheService.js, the site slug validator and their revisions), and
proves or refutes the frozen claims about the specification.

Strings are modelled as lists of characters.  JavaScript regular
expression substitutions are modelled by deterministic left-to-right
scanners that mirror the concrete regexes of the source (all of which
are deterministic after greedy-run analysis, as noted at each matcher).
-/

namespace NeoProxy

/-! ## Basic character and list utilities -/

/-- Double quote character. -/
def dq : Char := '"'

/-- Single quote (apostrophe) character, written via its code point. -/
def sq : Char := Char.ofNat 39

/-- Test for either JavaScript string quote. -/
def isQuote (c : Char) : Bool := c = dq || c = sq

/-- ASCII whitespace, modelling the JavaScript regex whitespace class
on the ASCII range (space, tab, newline, carriage return, vertical tab,
form feed). -/
def isWsChar (c : Char) : Bool :=
  c = ' ' || c = Char.ofNat 9 || c = Char.ofNat 10 || c = Char.ofNat 13 ||
  c = Char.ofNat 11 || c = Char.ofNat 12

/-- Case-insensitive character comparison (JavaScript regex flag i). -/
def ciEq (a b : Char) : Bool := a.toLower = b.toLower

/-- Case sensitive literal prefix test on lists. -/
def startsWithCS (pat s : List Char) : Bool := pat.isPrefixOf s

/-- Parse a literal case-insensitively; returns the actually consumed
characters (preserving their case, as regex capture groups do) and the
rest of the input. -/
def parseLitCI : List Char → List Char → Option (List Char × List Char)
  | [], s => some ([], s)
  | _ :: _, [] => none
  | l :: ls, c :: cs =>
    if ciEq c l then (parseLitCI ls cs).map (fun p => (c :: p.1, p.2)) else none

/-- Case-insensitive literal prefix test. -/
def startsWithCI (pat s : List Char) : Bool := (parseLitCI pat s).isSome

/-- Maximal run of characters satisfying a predicate (greedy character
class repetition in a regex), together with the remaining input. -/
def takeRun (p : Char → Bool) : List Char → List Char × List Char
  | [] => ([], [])
  | c :: cs =>
    if p c then
      let r := takeRun p cs
      (c :: r.1, r.2)
    else ([], c :: cs)

/-- Boolean substring containment. -/
def containsSub (pat : List Char) : List Char → Bool
  | [] => pat.isEmpty
  | c :: cs => startsWithCS pat (c :: cs) || containsSub pat cs

theorem parseLitCI_sound : ∀ (lit s a r : List Char),
    parseLitCI lit s = some (a, r) → s = a ++ r := by
  intro lit
  induction lit with
  | nil =>
    intro s a r h
    simp only [parseLitCI, Option.some.injEq, Prod.mk.injEq] at h
    simp [← h.1, ← h.2]
  | cons l ls ih =>
    intro s a r h
    cases s with
    | nil => simp [parseLitCI] at h
    | cons c cs =>
      unfold parseLitCI at h
      by_cases hc : ciEq c l = true
      · rw [if_pos hc] at h
        rw [Option.map_eq_some'] at h
        obtain ⟨⟨a1, r1⟩, hp, heq⟩ := h
        obtain ⟨h1, h2⟩ := Prod.mk.injEq .. ▸ heq
        subst h2
        rw [← h1]
        simpa using ih cs a1 r1 hp
      · rw [if_neg hc] at h
        cases h

theorem takeRun_sound (p : Char → Bool) : ∀ s : List Char,
    s = (takeRun p s).1 ++ (takeRun p s).2 := by
  intro s
  induction s with
  | nil => simp [takeRun]
  | cons c cs ih =>
    by_cases h : p c
    · simp only [takeRun, h, if_true]
      simpa using ih
    · simp [takeRun, h]

theorem takeRun_all (p : Char → Bool) : ∀ s : List Char, ∀ c ∈ (takeRun p s).1, p c = true := by
  intro s
  induction s with
  | nil => simp [takeRun]
  | cons c cs ih =>
    by_cases h : p c
    · simp only [takeRun, h, if_true]
      intro x hx
      rcases List.mem_cons.mp hx with h1 | h2
      · subst h1; exact h
      · exact ih x h2
    · simp [takeRun, h]

theorem all_of_sublist {p : Char → Bool} {l1 l2 : List Char}
    (h : l1.Sublist l2) (h2 : l2.all p = true) : l1.all p = true := by
  rw [List.all_eq_true] at h2 ⊢
  exact fun c hc => h2 c (h.subset hc)

/-! ## Site slug validation (the site slug validator, part 011)

Translation of isValidSiteSlug and sanitizeSiteSlug, and of the
validation logic at the head of lookupSiteBySlug (siteCacheService.js
lines 40 to 51). -/

/-- Characters allowed by the slug pattern: a-z A-Z 0-9 underscore hyphen. -/
def isSlugChar (c : Char) : Bool :=
  ('a' ≤ c && c ≤ 'z') || ('A' ≤ c && c ≤ 'Z') || ('0' ≤ c && c ≤ '9') || c = '_' || c = '-'

/-- Translation of isValidSiteSlug: the slug pattern must match the whole
string, which must be nonempty and at most 255 characters long.  A null
or non-string argument is outside this model (inputs are strings). -/
def isValidSiteSlug (s : List Char) : Bool :=
  s.all isSlugChar && decide (0 < s.length) && decide (s.length ≤ 255)

/-- JavaScript trim on the ASCII whitespace range. -/
def trimList (s : List Char) : List Char :=
  ((s.dropWhile isWsChar).reverse.dropWhile isWsChar).reverse

/-- Collapse runs of hyphens to a single hyphen, tracking whether the
previous character was a hyphen (the global replace of a run of hyphens
by a single hyphen). -/
def collapseHyphensAux : Bool → List Char → List Char
  | _, [] => []
  | true, c :: rest =>
    if c = '-' then collapseHyphensAux true rest
    else c :: collapseHyphensAux false rest
  | false, c :: rest =>
    if c = '-' then '-' :: collapseHyphensAux true rest
    else c :: collapseHyphensAux false rest

/-- Collapse runs of hyphens to a single hyphen. -/
def collapseHyphens (s : List Char) : List Char := collapseHyphensAux false s

/-- Remove a single leading hyphen if present. -/
def stripLeadHyphen : List Char → List Char
  | [] => []
  | c :: r => if c = '-' then r else c :: r

/-- Remove a single trailing hyphen if present; together with
stripLeadHyphen this is the global replace of the anchored leading or
trailing hyphen by the empty string (on a hyphen-collapsed string the
leading and trailing runs have length at most one). -/
def stripTrailHyphen (s : List Char) : List Char :=
  (stripLeadHyphen s.reverse).reverse

/-- Translation of sanitizeSiteSlug: lowercase, trim, replace characters
outside the slug class by hyphens, collapse hyphen runs, strip one
leading and one trailing hyphen.  The null return for a falsy argument
is modelled by none on the empty string. -/
def sanitizeSiteSlug (s : List Char) : Option (List Char) :=
  if s = [] then none
  else
    some (stripTrailHyphen (stripLeadHyphen (collapseHyphens
      ((trimList (s.map Char.toLower)).map (fun c => if isSlugChar c then c else '-')))))

/-- Translation of the validation prologue of lookupSiteBySlug: the slug
actually used in the database query, or none when no query is issued.
When the slug is valid it is used as is; otherwise the sanitized slug is
used when it is non-null and nonempty, and otherwise the lookup returns
null without querying. -/
def lookupQuerySlug (slug : List Char) : Option (List Char) :=
  if isValidSiteSlug slug then some slug
  else
    match sanitizeSiteSlug slug with
    | some s => if 0 < s.length then some s else none
    | none => none

theorem collapseHyphensAux_all (p : Char → Bool) (hp : p '-' = true) :
    ∀ (s : List Char) (prev : Bool), s.all p = true → (collapseHyphensAux prev s).all p = true := by
  intro s
  induction s with
  | nil => intro prev _; simp [collapseHyphensAux]
  | cons c rest ih =>
    intro prev h
    simp only [List.all_cons, Bool.and_eq_true] at h
    cases prev
    · by_cases hc : c = '-'
      · simp only [collapseHyphensAux, if_pos hc, List.all_cons, Bool.and_eq_true]
        exact ⟨hp, ih true h.2⟩
      · simp only [collapseHyphensAux, if_neg hc, List.all_cons, Bool.and_eq_true]
        exact ⟨h.1, ih false h.2⟩
    · by_cases hc : c = '-'
      · simp only [collapseHyphensAux, if_pos hc]
        exact ih true h.2
      · simp only [collapseHyphensAux, if_neg hc, List.all_cons, Bool.and_eq_true]
        exact ⟨h.1, ih false h.2⟩

theorem stripLeadHyphen_sublist (s : List Char) : (stripLeadHyphen s).Sublist s := by
  cases s with
  | nil => simp [stripLeadHyphen]
  | cons c r =>
    by_cases h : c = '-'
    · simp [stripLeadHyphen, h]
    · simp [stripLeadHyphen, h]

theorem stripTrailHyphen_sublist (s : List Char) : (stripTrailHyphen s).Sublist s := by
  have h := (stripLeadHyphen_sublist s.reverse).reverse
  simpa [stripTrailHyphen] using h

theorem sanitize_all_slugChars : ∀ (slug s : List Char),
    sanitizeSiteSlug slug = some s → s.all isSlugChar = true := by
  intro slug s hs
  unfold sanitizeSiteSlug at hs
  by_cases he : slug = []
  · simp [he] at hs
  · simp only [if_neg he, Option.some.injEq] at hs
    subst hs
    have hmap : ((trimList (slug.map Char.toLower)).map
        (fun c => if isSlugChar c then c else '-')).all isSlugChar = true := by
      rw [List.all_eq_true]
      intro c hc
      rw [List.mem_map] at hc
      obtain ⟨d, _, hd⟩ := hc
      by_cases hdc : isSlugChar d = true
      · rw [← hd]; simp [hdc]
      · rw [← hd, if_neg hdc]
        decide
    have hcol := collapseHyphensAux_all isSlugChar (by rfl) _ false hmap
    exact all_of_sublist (stripTrailHyphen_sublist _)
      (all_of_sublist (stripLeadHyphen_sublist _) hcol)

/-- Claim C10 theorem.  For every input slug, the lookup queries the
database only with a URL-safe slug: every queried slug is nonempty and
matches the slug character class; when the given slug does not match the
pattern it is first sanitized and the sanitized slug (if usable) is the
one queried; and when sanitization yields null or an empty string the
lookup returns null without issuing a query. -/
theorem c10_lookup_sanitizes (slug : List Char) :
    (∀ q, lookupQuerySlug slug = some q → q ≠ [] ∧ q.all isSlugChar = true)
    ∧ (¬ (slug ≠ [] ∧ slug.all isSlugChar = true) →
        lookupQuerySlug slug =
          (match sanitizeSiteSlug slug with
           | some s => if 0 < s.length then some s else none
           | none => none))
    ∧ (¬ (slug ≠ [] ∧ slug.all isSlugChar = true) →
        (sanitizeSiteSlug slug = none ∨ sanitizeSiteSlug slug = some []) →
        lookupQuerySlug slug = none) := by
  have hv_of : ¬ (slug ≠ [] ∧ slug.all isSlugChar = true) → isValidSiteSlug slug = false := by
    intro hnm
    unfold isValidSiteSlug
    by_cases he : slug = []
    · subst he; decide
    · by_cases ha : slug.all isSlugChar = true
      · exact absurd ⟨he, ha⟩ hnm
      · simp [ha]
  refine ⟨?_, ?_, ?_⟩
  · intro q hq
    unfold lookupQuerySlug at hq
    by_cases hv : isValidSiteSlug slug = true
    · rw [if_pos hv] at hq
      cases hq
      unfold isValidSiteSlug at hv
      simp only [Bool.and_eq_true, decide_eq_true_eq] at hv
      refine ⟨?_, hv.1.1⟩
      intro h
      subst h
      exact absurd hv.1.2 (by simp)
    · rw [if_neg hv] at hq
      cases hs : sanitizeSiteSlug slug with
      | none => simp [hs] at hq
      | some s =>
        simp only [hs] at hq
        by_cases hl : 0 < s.length
        · rw [if_pos hl] at hq
          rw [Option.some.injEq] at hq
          subst hq
          refine ⟨?_, sanitize_all_slugChars slug s hs⟩
          intro h
          subst h
          simp at hl
        · rw [if_neg hl] at hq
          cases hq
  · intro hnm
    unfold lookupQuerySlug
    simp [hv_of hnm]
  · intro hnm hse
    unfold lookupQuerySlug
    rcases hse with h | h <;> simp [hv_of hnm, h]

/-- Claim C10 witness: a slug with a space and punctuation is sanitized
before querying, and the sanitized query is URL-safe. -/
theorem c10_witness :
    ((¬ ((String.toList "My Site!") ≠ [] ∧ (String.toList "My Site!").all isSlugChar = true)) ∧
      ((String.toList "my-site") ≠ [] ∧ (String.toList "my-site").all isSlugChar = true)) ∧
    lookupQuerySlug (String.toList "My Site!") =
      (match sanitizeSiteSlug (String.toList "My Site!") with
       | some s => if 0 < s.length then some s else none
       | none => none) :=
  ⟨⟨by decide,
    (c10_lookup_sanitizes (String.toList "My Site!")).1 (String.toList "my-site") (by decide)⟩,
   (c10_lookup_sanitizes (String.toList "My Site!")).2.1 (by decide)⟩

/-! ## Request signals and tenant resolution (routeManager.js detectSite,
part 002 detectSiteSync) -/

/-- The signals of an inbound request or upgrade that resolution reads.
Missing headers are modelled by the empty list, as the source defaults
them to the empty string. -/
structure Req where
  url : List Char
  referer : List Char
  origin : List Char
  cookie : List Char

/-- Non-slash character class. -/
def nonSlash (c : Char) : Bool := c != '/'

/-- Loose cookie value class: everything except the semicolon. -/
def looseCookieClass (c : Char) : Bool := c != ';'

/-- Case sensitive literal parse, returns the rest of the input. -/
def parseLitCS (lit s : List Char) : Option (List Char) :=
  if startsWithCS lit s then some (s.drop lit.length) else none

theorem parseLitCS_sound {lit s r : List Char} (h : parseLitCS lit s = some r) :
    s = lit ++ r := by
  unfold parseLitCS at h
  by_cases hp : startsWithCS lit s = true
  · rw [if_pos hp] at h
    cases h
    unfold startsWithCS at hp
    obtain ⟨t, ht⟩ := (List.isPrefixOf_iff_prefix.mp hp)
    rw [← ht]
    simp
  · rw [if_neg hp] at h
    cases h

/-- The anchored regex caret slash vpn slash capture-nonslash-run slash:
used on the request url by detectSite (routeManager.js line 194). -/
def vpnSlugAnchored (url : List Char) : Option (List Char) :=
  match parseLitCS (String.toList "/vpn/") url with
  | none => none
  | some rest =>
    let r := takeRun nonSlash rest
    if r.1.isEmpty then none
    else
      match r.2 with
      | '/' :: _ => some r.1
      | _ => none

/-- The unanchored variant of the same regex, used on the referer and
origin headers: the pattern is tried at every position left to right. -/
def findVpnSlug : List Char → Option (List Char)
  | [] => none
  | c :: cs =>
    match vpnSlugAnchored (c :: cs) with
    | some s => some s
    | none => findVpnSlug cs

/-- Leftmost match of a cookie pair: the literal key followed by a
nonempty greedy run of characters of the value class.  A position where
the key matches but the value run is empty is not a match and scanning
continues at the next character, as for the source regexes. -/
def cookieAfterKey (key : List Char) (cls : Char → Bool) : List Char → Option (List Char)
  | [] => none
  | c :: cs =>
    match parseLitCS key (c :: cs) with
    | some rest =>
      let r := takeRun cls rest
      if r.1.isEmpty then cookieAfterKey key cls cs else some r.1
    | none => cookieAfterKey key cls cs

/-- Cookie value of vpn-site with the loose class excluding only the
semicolon (the detectSite and detectSiteSync regexes). -/
def cookieSiteLoose (cookie : List Char) : Option (List Char) :=
  cookieAfterKey (String.toList "vpn-site=") looseCookieClass cookie

/-- Character class excluding semicolon, comma and whitespace (the
upgrade handler cookie regexes). -/
def strictCookieClass (c : Char) : Bool := !(c = ';' || c = ',' || isWsChar c)

/-- Cookie value of vpn-site with the strict class. -/
def cookieSiteStrict (cookie : List Char) : Option (List Char) :=
  cookieAfterKey (String.toList "vpn-site=") strictCookieClass cookie

/-- Cookie value of vpn-neocore with the strict class. -/
def cookieNeocoreStrict (cookie : List Char) : Option (List Char) :=
  cookieAfterKey (String.toList "vpn-neocore=") strictCookieClass cookie

/-- Translation of detectSite (routeManager.js lines 192 to 222; the
same function appears at lines 612 to 642 and in part 001): try the
anchored url pattern, then the referer, then the origin, then the
vpn-site cookie; the first signal that parses is looked up in the site
table and that lookup result is returned as is. -/
def detectSite {σ : Type} (req : Req) (sites : List Char → Option σ) : Option σ :=
  match vpnSlugAnchored req.url with
  | some s => sites s
  | none =>
    match findVpnSlug req.referer with
    | some s => sites s
    | none =>
      match findVpnSlug req.origin with
      | some s => sites s
      | none =>
        if req.cookie.isEmpty then none
        else
          match cookieSiteLoose req.cookie with
          | some v => sites v
          | none => none

/-- Translation of getSiteAndNeocoreFromPath (part 002 lines 20 to 23):
anchored slash vpn slash slug slash neocore slash id with a terminator
group of slash, end of input, or question mark.  After a maximal
non-slash run the next character is always a slash or the end of input,
so the terminator group never fails. -/
def siteAndNeocoreFromPath (url : List Char) : Option (List Char × List Char) :=
  match parseLitCS (String.toList "/vpn/") url with
  | none => none
  | some r1 =>
    let a := takeRun nonSlash r1
    if a.1.isEmpty then none
    else
      match parseLitCS (String.toList "/neocore/") a.2 with
      | none => none
      | some r2 =>
        let b := takeRun nonSlash r2
        if b.1.isEmpty then none else some (a.1, b.1)

/-- Shared tail of detectSiteSync after its neocore-path step (part 002
lines 86 to 98): anchored url, referer, origin, then the trimmed
vpn-site cookie. -/
def detectSiteSyncTail {σ : Type} (req : Req) (sites : List Char → Option σ) : Option σ :=
  match vpnSlugAnchored req.url with
  | some s => sites s
  | none =>
    match findVpnSlug req.referer with
    | some s => sites s
    | none =>
      match findVpnSlug req.origin with
      | some s => sites s
      | none =>
        if req.cookie.isEmpty then none
        else
          match cookieSiteLoose req.cookie with
          | some v => sites (trimList v)
          | none => none

/-- Translation of detectSiteSync (part 002 lines 80 to 99). -/
def detectSiteSync {σ : Type} (req : Req) (sites : List Char → Option σ) : Option σ :=
  match siteAndNeocoreFromPath req.url with
  | some (sl, _) =>
    match sites sl with
    | some site => some site
    | none => detectSiteSyncTail req sites
  | none => detectSiteSyncTail req sites

/-- Resolution semantics that the code actually implements, written from
the spec side for comparison: the first signal that parses successfully
selects the slug, and resolution is that single slug looked up in the
site table, with no fall-through to lower-priority signals when the
lookup fails. -/
def firstParsedSlug (req : Req) : Option (List Char) :=
  match vpnSlugAnchored req.url with
  | some s => some s
  | none =>
    match findVpnSlug req.referer with
    | some s => some s
    | none =>
      match findVpnSlug req.origin with
      | some s => some s
      | none => if req.cookie.isEmpty then none else cookieSiteLoose req.cookie

/-- Same as firstParsedSlug with the trimmed cookie value, matching
detectSiteSync. -/
def firstParsedSlugSync (req : Req) : Option (List Char) :=
  match vpnSlugAnchored req.url with
  | some s => some s
  | none =>
    match findVpnSlug req.referer with
    | some s => some s
    | none =>
      match findVpnSlug req.origin with
      | some s => some s
      | none =>
        if req.cookie.isEmpty then none
        else (cookieSiteLoose req.cookie).map trimList

theorem pathInfo_vpnSlug {url sl nc : List Char}
    (h : siteAndNeocoreFromPath url = some (sl, nc)) : vpnSlugAnchored url = some sl := by
  unfold siteAndNeocoreFromPath at h
  cases h1 : parseLitCS (String.toList "/vpn/") url with
  | none => rw [h1] at h; cases h
  | some r1 =>
    rw [h1] at h
    simp only at h
    by_cases he : (takeRun nonSlash r1).1.isEmpty = true
    · rw [if_pos he] at h; cases h
    · rw [if_neg he] at h
      cases h2 : parseLitCS (String.toList "/neocore/") (takeRun nonSlash r1).2 with
      | none => rw [h2] at h; cases h
      | some r2 =>
        rw [h2] at h
        simp only at h
        by_cases hb : (takeRun nonSlash r2).1.isEmpty = true
        · rw [if_pos hb] at h; cases h
        · rw [if_neg hb] at h
          rw [Option.some.injEq, Prod.mk.injEq] at h
          have hsl : (takeRun nonSlash r1).1 = sl := h.1
          have hslash : ∃ t, (takeRun nonSlash r1).2 = '/' :: t := by
            have := parseLitCS_sound h2
            exact ⟨_, this⟩
          obtain ⟨t, ht⟩ := hslash
          unfold vpnSlugAnchored
          rw [h1]
          have he' : sl.isEmpty = false := by
            rw [← hsl]
            cases hx : (takeRun nonSlash r1).1.isEmpty
            · rfl
            · exact absurd hx he
          simp [ht, hsl, he']

/-- Claim C1 amended theorem.  Both resolver variants consult the
signals in the priority order path, referer, origin, cookie, but the
winner is the first signal that parses, not the first that resolves:
each resolver equals the lookup of its first parsed slug, so when a
higher-priority signal parses to an unknown slug the resolver returns
no site without consulting lower-priority signals, and the enablement
flag is not consulted at all. -/
theorem c1_resolver_first_parse_wins (σ : Type) (req : Req) (sites : List Char → Option σ) :
    detectSite req sites = (firstParsedSlug req).bind sites
    ∧ detectSiteSync req sites = (firstParsedSlugSync req).bind sites := by
  constructor
  · unfold detectSite firstParsedSlug
    cases vpnSlugAnchored req.url with
    | some s => simp
    | none =>
      simp only
      cases findVpnSlug req.referer with
      | some s => simp
      | none =>
        simp only
        cases findVpnSlug req.origin with
        | some s => simp
        | none =>
          simp only
          by_cases hc : req.cookie.isEmpty = true
          · simp [hc]
          · simp only [if_neg hc]
            cases cookieSiteLoose req.cookie with
            | some v => simp
            | none => simp
  · have htail : detectSiteSyncTail req sites = (firstParsedSlugSync req).bind sites := by
      unfold detectSiteSyncTail firstParsedSlugSync
      cases vpnSlugAnchored req.url with
      | some s => simp
      | none =>
        simp only
        cases findVpnSlug req.referer with
        | some s => simp
        | none =>
          simp only
          cases findVpnSlug req.origin with
          | some s => simp
          | none =>
            simp only
            by_cases hc : req.cookie.isEmpty = true
            · simp [hc]
            · simp only [if_neg hc]
              cases cookieSiteLoose req.cookie with
              | some v => simp
              | none => simp
    unfold detectSiteSync
    cases hp : siteAndNeocoreFromPath req.url with
    | none => exact htail
    | some p =>
      obtain ⟨sl, nc⟩ := p
      have hanch := pathInfo_vpnSlug hp
      simp only
      cases hs : sites sl with
      | some site =>
        unfold firstParsedSlugSync
        rw [hanch]
        simp [hs]
      | none => exact htail

/-- Concrete site table for the claim C1 counterexample: one known,
enabled tenant site1, represented by the number seven. -/
def c1Sites : List Char → Option Nat :=
  fun s => if s = String.toList "site1" then some 7 else none

/-- Concrete request for the claim C1 counterexample: the path carries
the unknown tenant segment ghost while the referer carries the known
tenant site1. -/
def c1Req : Req :=
  { url := String.toList "/vpn/ghost/app/x"
  , referer := String.toList "http://gw.example/vpn/site1/app"
  , origin := []
  , cookie := [] }

/-- Claim C1 counterexample.  The path segment parses to the unknown
slug ghost, the referer parses to the known tenant site1, yet both
resolver variants return no site: the lower-priority referer signal is
not consulted after the higher-priority path signal parses without
resolving, contradicting the claim that the next lower-priority signal
is still consulted. -/
theorem c1_counterexample :
    detectSite c1Req c1Sites = none
    ∧ detectSiteSync c1Req c1Sites = none
    ∧ findVpnSlug c1Req.referer = some (String.toList "site1")
    ∧ c1Sites (String.toList "site1") = some 7 := by
  refine ⟨by decide, by decide, by decide, by decide⟩

/-! ## Response actions and JSON bodies -/

/-- A JSON scalar value, enough for the structured error bodies. -/
inductive JsonVal
  | s (v : String)
  | n (v : Nat)
deriving DecidableEq

/-- What a middleware does with a request: answer it with a status and a
JSON body, or pass it on to the next handler. -/
inductive MwAction
  | respond (status : Nat) (body : List (String × JsonVal))
  | next
deriving DecidableEq

/-- Status of an action, if it answers. -/
def statusOf : MwAction → Option Nat
  | .respond st _ => some st
  | .next => none

/-- Body of an action, empty if it forwards. -/
def bodyOf : MwAction → List (String × JsonVal)
  | .respond _ b => b
  | .next => []

/-! ## Device tunnel readiness gate (proxyFactory.js createDevicesProxy,
lines 177 to 192) -/

/-- Devices configuration of a site, as read by the tunnel check. -/
structure DevicesCfg where
  enabled : Bool
  tunnelReady : Bool
  target : String
  socksPort : Nat
deriving DecidableEq

/-- The site fields read by createDevicesProxy. -/
structure SockSite where
  name : String
  vpnIp : String
  devices : DevicesCfg
deriving DecidableEq

/-- Translation of the tunnelCheck middleware: when the tunnel readiness
flag is false the request is answered with 503 and a structured body and
is not forwarded; otherwise it is passed to the proxy. -/
def tunnelCheck (site : SockSite) : MwAction :=
  if site.devices.tunnelReady then MwAction.next
  else
    MwAction.respond 503
      [ ("error", JsonVal.s "SOCKS tunnel not ready")
      , ("message", JsonVal.s "Please wait for tunnel to establish")
      , ("site", JsonVal.s site.name)
      , ("service", JsonVal.s "devices")
      , ("vpnIp", JsonVal.s site.vpnIp)
      , ("socksPort", JsonVal.n site.devices.socksPort)
      , ("retryAfter", JsonVal.n 2) ]

/-- Claim C8 theorem.  For every device-service request made while the
tunnel readiness flag is false, the gateway responds 503 with a JSON
body containing an error field and a retryAfter hint, does not forward
the request, and the readiness failure is not surfaced as a 502. -/
theorem c8_tunnel_not_ready_503 (site : SockSite)
    (h : site.devices.tunnelReady = false) :
    tunnelCheck site ≠ MwAction.next
    ∧ statusOf (tunnelCheck site) = some 503
    ∧ statusOf (tunnelCheck site) ≠ some 502
    ∧ ((bodyOf (tunnelCheck site)).lookup "error").isSome = true
    ∧ (bodyOf (tunnelCheck site)).lookup "retryAfter" = some (JsonVal.n 2) := by
  unfold tunnelCheck
  rw [h]
  refine ⟨by simp, by simp [statusOf], by simp [statusOf], ?_, ?_⟩
  · simp [bodyOf, List.lookup]
  · simp [bodyOf, List.lookup]

/-- Concrete site for the claim C8 witness. -/
def c8SiteEx : SockSite :=
  { name := "site1", vpnIp := "10.9.0.5"
  , devices := { enabled := true, tunnelReady := false, target := "http://172.16.2.100", socksPort := 1080 } }

/-- Claim C8 witness at a concrete not-ready site. -/
theorem c8_witness :
    c8SiteEx.devices.tunnelReady = false
    ∧ (tunnelCheck c8SiteEx ≠ MwAction.next
       ∧ statusOf (tunnelCheck c8SiteEx) = some 503
       ∧ statusOf (tunnelCheck c8SiteEx) ≠ some 502
       ∧ ((bodyOf (tunnelCheck c8SiteEx)).lookup "error").isSome = true
       ∧ (bodyOf (tunnelCheck c8SiteEx)).lookup "retryAfter" = some (JsonVal.n 2)) :=
  ⟨rfl, c8_tunnel_not_ready_503 c8SiteEx rfl⟩

/-! ## Backend error surfacing (proxyFactory.js createNeocoreProxy
onError, lines 78 to 98; routeManager.js createProxy onError, lines 243
to 249 and part 002 lines 211 to 216) -/

/-- The error context an onError hook receives. -/
structure PErr where
  code : String
  msg : String
  headersSent : Bool
  writableEnded : Bool
deriving DecidableEq

/-- Log severity: silent (nothing printed) or high (console error). -/
inductive LogSev
  | silent
  | high
deriving DecidableEq

/-- The site fields read by createNeocoreProxy onError. -/
structure NeoSite where
  name : String
  target : String
  vpnIp : String
deriving DecidableEq

/-- Translation of createNeocoreProxy onError: reset and broken pipe are
not logged, every other code is logged at high severity; independently
of the code, a 502 with the structured body is sent whenever the
response is still writable. -/
def neocoreOnError (site : NeoSite) (e : PErr) : LogSev × Option (Nat × List (String × JsonVal)) :=
  ( if e.code = "ECONNRESET" ∨ e.code = "EPIPE" then LogSev.silent else LogSev.high
  , if e.headersSent = false ∧ e.writableEnded = false then
      some (502,
        [ ("error", JsonVal.s "Proxy error")
        , ("message", JsonVal.s e.msg)
        , ("site", JsonVal.s site.name)
        , ("service", JsonVal.s "neocore")
        , ("target", JsonVal.s site.target)
        , ("vpnIp", JsonVal.s site.vpnIp) ])
    else none )

/-- Translation of the generic createProxy onError of the route manager:
nothing is logged, and a 502 with only the error and message fields is
sent unless the code is reset or broken pipe or the response is no
longer writable. -/
def createProxyOnError (e : PErr) : Option (Nat × List (String × JsonVal)) :=
  if e.code ≠ "ECONNRESET" ∧ e.code ≠ "EPIPE" ∧ e.headersSent = false ∧ e.writableEnded = false then
    some (502, [("error", JsonVal.s "Proxy error"), ("message", JsonVal.s e.msg)])
  else none

/-- Claim C7 counterexample.  For a benign connection reset on a still
writable response, the route manager proxy error handler sends no
response at all instead of the claimed 502, and for a non-benign error
its 502 body has neither a tenant nor a target field. -/
theorem c7_counterexample :
    createProxyOnError
      { code := "ECONNRESET", msg := "read ECONNRESET", headersSent := false, writableEnded := false } = none
    ∧ (createProxyOnError
        { code := "EHOSTUNREACH", msg := "host unreachable", headersSent := false, writableEnded := false }).map
        (fun r => (r.2.lookup "site", r.2.lookup "target")) = some (none, none) := by
  constructor
  · decide
  · decide

/-- Claim C7 amended theorem.  The neocore proxy handler surfaces every
connection-level backend error, benign codes included, as a 502 whose
body has the error, message, site (tenant) and target fields whenever
the response is still writable, and logs exactly the codes other than
reset and broken pipe (so refused and write-after-end are logged at
high severity); the generic route manager proxy handler sends nothing
for reset and broken pipe, and for all other codes sends a 502 whose
body has only the error and message fields. -/
theorem c7_backend_error_handling (site : NeoSite) (e : PErr) :
    (e.headersSent = false → e.writableEnded = false →
      ∃ body, (neocoreOnError site e).2 = some (502, body)
        ∧ body.lookup "error" = some (JsonVal.s "Proxy error")
        ∧ body.lookup "message" = some (JsonVal.s e.msg)
        ∧ body.lookup "site" = some (JsonVal.s site.name)
        ∧ body.lookup "target" = some (JsonVal.s site.target))
    ∧ ((neocoreOnError site e).1 = LogSev.silent ↔ (e.code = "ECONNRESET" ∨ e.code = "EPIPE"))
    ∧ ((e.code = "ECONNRESET" ∨ e.code = "EPIPE") → createProxyOnError e = none)
    ∧ (e.code ≠ "ECONNRESET" → e.code ≠ "EPIPE" → e.headersSent = false → e.writableEnded = false →
        createProxyOnError e =
          some (502, [("error", JsonVal.s "Proxy error"), ("message", JsonVal.s e.msg)])) := by
  refine ⟨?_, ?_, ?_, ?_⟩
  · intro h1 h2
    refine ⟨[ ("error", JsonVal.s "Proxy error"), ("message", JsonVal.s e.msg)
            , ("site", JsonVal.s site.name), ("service", JsonVal.s "neocore")
            , ("target", JsonVal.s site.target), ("vpnIp", JsonVal.s site.vpnIp)], ?_, ?_, ?_, ?_, ?_⟩
    · unfold neocoreOnError
      simp [h1, h2]
    all_goals simp [List.lookup]
  · unfold neocoreOnError
    by_cases hb : e.code = "ECONNRESET" ∨ e.code = "EPIPE"
    · simp [hb]
    · simp [hb]
  · intro hb
    unfold createProxyOnError
    rw [if_neg]
    rcases hb with h | h <;> simp [h]
  · intro h1 h2 h3 h4
    unfold createProxyOnError
    rw [if_pos ⟨h1, h2, h3, h4⟩]

/-- Concrete refused error for the claim C7 witness. -/
def c7ErrEx : PErr :=
  { code := "ECONNREFUSED", msg := "connect ECONNREFUSED", headersSent := false, writableEnded := false }

/-- Concrete site for the claim C7 witness. -/
def c7SiteEx : NeoSite := { name := "site1", target := "http://10.9.0.5:80", vpnIp := "10.9.0.5" }

/-- Claim C7 witness: a refused connection on a writable response gets
the full-bodied 502 from the neocore handler and the two-field 502 from
the generic handler. -/
theorem c7_witness :
    (∃ body, (neocoreOnError c7SiteEx c7ErrEx).2 = some (502, body)
      ∧ body.lookup "error" = some (JsonVal.s "Proxy error")
      ∧ body.lookup "message" = some (JsonVal.s c7ErrEx.msg)
      ∧ body.lookup "site" = some (JsonVal.s c7SiteEx.name)
      ∧ body.lookup "target" = some (JsonVal.s c7SiteEx.target))
    ∧ createProxyOnError c7ErrEx =
        some (502, [("error", JsonVal.s "Proxy error"), ("message", JsonVal.s c7ErrEx.msg)]) :=
  ⟨(c7_backend_error_handling c7SiteEx c7ErrEx).1 rfl rfl,
   (c7_backend_error_handling c7SiteEx c7ErrEx).2.2.2 (by decide) (by decide) rfl rfl⟩

/-! ## Proxy registry (assetsService.js getRootProxyForSite, lines 424
to 472; part 002 dynamic device route, lines 696 to 734) -/

/-- State of the root proxy cache: the map from site name to the live
instance (instances are numbered by creation order) and the next fresh
instance number. -/
structure RegState where
  cache : List (String × Nat)
  nextId : Nat
deriving DecidableEq

/-- Translation of getRootProxyForSite: create and insert a fresh
instance when the site has no cached one, then return the cached
instance.  The third component counts the instances created by the
call. -/
def getRootProxyForSite (name : String) (st : RegState) : Option Nat × RegState × Nat :=
  if (st.cache.lookup name).isSome then (st.cache.lookup name, st, 0)
  else
    let st' : RegState := { cache := (name, st.nextId) :: st.cache, nextId := st.nextId + 1 }
    (st'.cache.lookup name, st', 1)

/-- A device entry of a site, as read by the dynamic device route. -/
structure DevEntry where
  target : String
deriving DecidableEq

/-- The site fields read by the dynamic device route. -/
structure DevSite where
  name : String
  deviceList : List (String × DevEntry)
deriving DecidableEq

/-- Translation of the dynamic device route handler of part 002 (lines
696 to 734): look the site up in the static configuration, fall back to
the database lookup result when the site or the device is missing, and
when the device is found create a proxy on the fly via createDeviceProxy
and use it for this request, storing it nowhere.  createDeviceProxy is a
constructor (as every create function of proxyFactory.js is, building a
new middleware per call), modelled by consuming a fresh instance number;
the returned pair is the instance used for the request (none when the
route falls through) and the next fresh instance number. -/
def dynamicDeviceRoute (staticSites : String → Option DevSite) (dbSite : Option DevSite)
    (siteSlug deviceId : String) (alloc : Nat) : Option Nat × Nat :=
  let hasDev : Option DevSite → Bool := fun os =>
    match os with
    | some s => (s.deviceList.lookup deviceId).isSome
    | none => false
  let s0 := staticSites siteSlug
  let site := if hasDev s0 then s0 else dbSite
  if hasDev site then (some alloc, alloc + 1) else (none, alloc)

/-- Database lookup result for the claim C4 counterexample: a site with
one device, absent from the static configuration. -/
def c4Db : Option DevSite :=
  some { name := "site1", deviceList := [("cam1", { target := "http://172.16.2.100" })] }

/-- Static configuration for the claim C4 counterexample: empty. -/
def c4Static : String → Option DevSite := fun _ => none

/-- Claim C4 counterexample.  Two successive requests for the same
device key resolved via the dynamic database-lookup route each receive a
freshly created proxy instance (instance zero, then instance one), not
the same single instance the claim requires. -/
theorem c4_counterexample :
    (dynamicDeviceRoute c4Static c4Db "site1" "cam1" 0).1 = some 0
    ∧ (dynamicDeviceRoute c4Static c4Db "site1" "cam1"
        (dynamicDeviceRoute c4Static c4Db "site1" "cam1" 0).2).1 = some 1
    ∧ (some 0 : Option Nat) ≠ some 1 := by
  refine ⟨by decide, by decide, by decide⟩

/-- Claim C4 amended theorem.  The root proxy cache is a real registry:
two successive accesses for the same tenant return the same single
instance, the second access creates nothing, and a miss creates exactly
one instance.  By contrast the dynamic device route constructs a fresh
proxy instance on every request that reaches its device target: two
successive requests for the same key receive distinct instances. -/
theorem c4_registry_behaviour (name : String) (st : RegState) :
    ((getRootProxyForSite name (getRootProxyForSite name st).2.1).1
        = (getRootProxyForSite name st).1
      ∧ (getRootProxyForSite name st).1.isSome = true
      ∧ (getRootProxyForSite name (getRootProxyForSite name st).2.1).2.2 = 0
      ∧ (st.cache.lookup name = none → (getRootProxyForSite name st).2.2 = 1))
    ∧ (∀ ss dbs slug dev alloc p1 a1 p2 a2,
        dynamicDeviceRoute ss dbs slug dev alloc = (some p1, a1) →
        dynamicDeviceRoute ss dbs slug dev a1 = (some p2, a2) →
        p1 ≠ p2) := by
  constructor
  · by_cases h : (st.cache.lookup name).isSome = true
    · refine ⟨?_, ?_, ?_, ?_⟩
      · simp [getRootProxyForSite, h]
      · simp only [getRootProxyForSite, if_pos h]
        exact h
      · simp [getRootProxyForSite, h]
      · intro hn
        rw [hn] at h
        simp at h
    · have hl : ((name, st.nextId) :: st.cache).lookup name = some st.nextId := by
        simp [List.lookup]
      refine ⟨?_, ?_, ?_, ?_⟩
      · simp [getRootProxyForSite, h, hl]
      · simp [getRootProxyForSite, h, hl]
      · simp [getRootProxyForSite, h, hl]
      · intro _
        simp [getRootProxyForSite, h]
  · intro ss dbs slug dev alloc p1 a1 p2 a2 h1 h2
    unfold dynamicDeviceRoute at h1 h2
    by_cases hc : (match (if (match ss slug with
        | some s => (s.deviceList.lookup dev).isSome
        | none => false) = true then ss slug else dbs) with
        | some s => (s.deviceList.lookup dev).isSome
        | none => false) = true
    · rw [if_pos hc] at h1 h2
      obtain ⟨e1, e2⟩ := Prod.mk.injEq .. ▸ h1
      obtain ⟨e3, _⟩ := Prod.mk.injEq .. ▸ h2
      rw [Option.some.injEq] at e1 e3
      omega
    · rw [if_neg hc] at h1
      cases h1

/-- Claim C4 witness, instantiating the registry half on an empty cache
and the device half on the counterexample configuration. -/
theorem c4_witness :
    ((getRootProxyForSite "site1" (getRootProxyForSite "site1" ⟨[], 0⟩).2.1).1
        = (getRootProxyForSite "site1" ⟨[], 0⟩).1
      ∧ (getRootProxyForSite "site1" ⟨[], 0⟩).2.2 = 1)
    ∧ (0 : Nat) ≠ 1 :=
  ⟨⟨(c4_registry_behaviour "site1" ⟨[], 0⟩).1.1,
    (c4_registry_behaviour "site1" ⟨[], 0⟩).1.2.2.2 (by decide)⟩,
   (c4_registry_behaviour "site1" ⟨[], 0⟩).2 c4Static c4Db "site1" "cam1" 0 0 1 1 2
     (by decide) (by decide)⟩

/-! ## Gateway cookies on first tenant-prefixed page load -/

/-- A set-cookie directive. -/
structure SetCookie where
  name : String
  value : String
  httpOnly : Bool
  sameSite : String
  maxAgeMs : Nat
deriving DecidableEq

/-- Modelled from the spec: the serveHTML revision that takes the site
slug together with a neocore id (its callers are part 002 lines 532 and
623) is not among the sources under src, and the in-src serveHTML
revisions only inject the base tag; the cookies it sets are modelled
from the spec, section 6: on first tenant-prefixed page load the gateway
sets a tenant-slug cookie and, where applicable, a sub-service-id
cookie, both non-HTTP-only, SameSite lax, with a 24 hour lifetime. -/
def serveHTMLCookies (siteName : String) (neocoreId : Option String) : List SetCookie :=
  { name := "vpn-site", value := siteName, httpOnly := false, sameSite := "lax"
  , maxAgeMs := 86400000 } ::
  (match neocoreId with
   | some nc =>
     [{ name := "vpn-neocore", value := nc, httpOnly := false, sameSite := "lax"
      , maxAgeMs := 86400000 }]
   | none => [])

/-- Claim C9 theorem.  The response to the first tenant-prefixed page
load sets a tenant-slug cookie and, when a sub-service id applies, a
sub-service-id cookie, both non-HTTP-only, SameSite lax, with a 24 hour
lifetime (86400000 milliseconds). -/
theorem c9_first_load_cookies (siteName : String) (neocoreId : Option String) :
    (∃ c ∈ serveHTMLCookies siteName neocoreId,
        c.name = "vpn-site" ∧ c.value = siteName ∧ c.httpOnly = false
        ∧ c.sameSite = "lax" ∧ c.maxAgeMs = 24 * 60 * 60 * 1000)
    ∧ (∀ nc, neocoreId = some nc →
        ∃ c ∈ serveHTMLCookies siteName neocoreId,
          c.name = "vpn-neocore" ∧ c.value = nc ∧ c.httpOnly = false
          ∧ c.sameSite = "lax" ∧ c.maxAgeMs = 24 * 60 * 60 * 1000)
    ∧ (∀ c ∈ serveHTMLCookies siteName neocoreId, c.httpOnly = false) := by
  refine ⟨⟨_, List.mem_cons_self .., rfl, rfl, rfl, rfl, by norm_num⟩, ?_, ?_⟩
  · intro nc hnc
    subst hnc
    refine ⟨{ name := "vpn-neocore", value := nc, httpOnly := false, sameSite := "lax"
            , maxAgeMs := 86400000 }, ?_, rfl, rfl, rfl, rfl, by norm_num⟩
    simp [serveHTMLCookies]
  · intro c hc
    unfold serveHTMLCookies at hc
    rcases List.mem_cons.mp hc with h | h
    · rw [h]
    · cases neocoreId with
      | some nc =>
        simp only [List.mem_singleton] at h
        rw [h]
      | none => simp at h

/-- Claim C9 witness at a concrete tenant and sub-service id. -/
theorem c9_witness :
    (∃ c ∈ serveHTMLCookies "site1" (some "0"),
        c.name = "vpn-neocore" ∧ c.value = "0" ∧ c.httpOnly = false
        ∧ c.sameSite = "lax" ∧ c.maxAgeMs = 24 * 60 * 60 * 1000)
    ∧ (∀ c ∈ serveHTMLCookies "site1" (some "0"), c.httpOnly = false) :=
  ⟨(c9_first_load_cookies "site1" (some "0")).2.1 "0" rfl,
   (c9_first_load_cookies "site1" (some "0")).2.2⟩

/-! ## Upgrade coordinator (part 002 registerNeocoreRoutes, the upgrade
listener at lines 459 to 510) -/

/-- A site as the upgrade coordinator reads it: its slug and the ids of
its neocores in insertion order (the neocore configurations themselves
do not influence the routing decision). -/
structure UpSite where
  name : List Char
  neocores : List (List Char)
deriving DecidableEq

/-- Translation of the hasNeocores helper (part 002 lines 15 to 17). -/
def hasNeocores (s : UpSite) : Bool := !s.neocores.isEmpty

/-- Lookup of a site by slug in the current site collection, which keeps
its object insertion order. -/
def findSite (cur : List UpSite) (n : List Char) : Option UpSite :=
  cur.find? (fun s => s.name == n)

/-- What the upgrade listener does with an upgrade event. -/
inductive UpAction
  | ignore
  | destroy
  | dispatch (siteName ncId : List Char)
deriving DecidableEq

/-- JavaScript falsiness of an optional string: absent or empty. -/
def optFalsy : Option (List Char) → Bool
  | none => true
  | some v => v.isEmpty

/-- Path stage of the upgrade listener: read the site slug and neocore
id from the tenant-prefixed path and look the site up. -/
def stagePath (cur : List UpSite) (req : Req) : Option UpSite × Option (List Char) :=
  match siteAndNeocoreFromPath req.url with
  | some (sl, nc) => (findSite cur sl, some nc)
  | none => (none, none)

/-- Cookie stage: when the site or the neocore id is still missing, read
the strict vpn-site and vpn-neocore cookies, each assignment happening
independently when its cookie matches. -/
def stageCookie (cur : List UpSite) (req : Req) (st : Option UpSite × Option (List Char)) :
    Option UpSite × Option (List Char) :=
  if st.1.isNone || optFalsy st.2 then
    ( match cookieSiteStrict req.cookie with
      | some v => findSite cur (trimList v)
      | none => st.1
    , match cookieNeocoreStrict req.cookie with
      | some v => some (trimList v)
      | none => st.2 )
  else st

/-- Synchronous fallback stage: resolve the site via detectSiteSync when
still missing, then default a missing neocore id to the first key of the
resolved site. -/
def stageSync (cur : List UpSite) (req : Req) (st : Option UpSite × Option (List Char)) :
    Option UpSite × Option (List Char) :=
  let ts := if st.1.isNone then detectSiteSync req (findSite cur) else st.1
  let nc :=
    match ts with
    | some s => if optFalsy st.2 then s.neocores.head? else st.2
    | none => st.2
  (ts, nc)

/-- First-tenant fallback stage: when no site resolved, take the first
site of the collection that has neocores, together with its first
neocore id. -/
def stageFirst (cur : List UpSite) (st : Option UpSite × Option (List Char)) :
    Option UpSite × Option (List Char) :=
  if st.1.isNone then
    match cur.find? hasNeocores with
    | some s => (some s, s.neocores.head?)
    | none => (none, st.2)
  else st

/-- Final validity check and dispatch of the upgrade listener: destroy
the socket when the binding is unresolved (no site, a site without
neocores, a falsy neocore id, or an id the site does not have) or when
no reusable raw proxy exists for the key; otherwise hand the connection
to the proxy of that key. -/
def upgradeFinal (keys : List (List Char × List Char)) (st : Option UpSite × Option (List Char)) :
    UpAction :=
  match st with
  | (some site, some nc) =>
    if nc.isEmpty then UpAction.destroy
    else if hasNeocores site && site.neocores.contains nc then
      if keys.contains (site.name, nc) then UpAction.dispatch site.name nc else UpAction.destroy
    else UpAction.destroy
  | _ => UpAction.destroy

/-- Translation of the process-wide upgrade listener of part 002 (lines
459 to 510): filter to urls containing the socket subprotocol path,
resolve through the four stages, then check and dispatch.  The keys
parameter is the key set of the reusable raw proxies built at
registration time. -/
def upgradeHandler (keys : List (List Char × List Char)) (cur : List UpSite) (req : Req) :
    UpAction :=
  if containsSub (String.toList "/socket.io") req.url then
    upgradeFinal keys (stageFirst cur (stageSync cur req (stageCookie cur req (stagePath cur req))))
  else UpAction.ignore

theorem hasNeocores_of_contains {site : UpSite} {nc : List Char}
    (h : site.neocores.contains nc = true) : hasNeocores site = true := by
  unfold hasNeocores
  cases hn : site.neocores with
  | nil => rw [hn] at h; simp [List.contains] at h
  | cons a l => simp

theorem contains_of_head? {l : List (List Char)} {h : List Char}
    (hh : l.head? = some h) : l.contains h = true := by
  cases l with
  | nil => simp at hh
  | cons a t =>
    simp only [List.head?_cons, Option.some.injEq] at hh
    subst hh
    simp [List.contains_cons]

theorem pipeline_site_mem (cur : List UpSite) (req : Req) {site : UpSite}
    (h : (stageFirst cur (stageSync cur req (stageCookie cur req (stagePath cur req)))).1
        = some site) : site ∈ cur := by
  have hfind : ∀ n s, findSite cur n = some s → s ∈ cur := by
    intro n s hf
    exact List.mem_of_find?_eq_some hf
  have hsync : ∀ s, detectSiteSync req (findSite cur) = some s → s ∈ cur := by
    intro s hd
    have heq := (c1_resolver_first_parse_wins UpSite req (findSite cur)).2
    rw [heq] at hd
    cases hp : firstParsedSlugSync req with
    | none => rw [hp] at hd; cases hd
    | some sl =>
      rw [hp] at hd
      exact hfind sl s hd
  have hpath : ∀ s, (stagePath cur req).1 = some s → s ∈ cur := by
    intro s hp
    unfold stagePath at hp
    cases hi : siteAndNeocoreFromPath req.url with
    | none => rw [hi] at hp; cases hp
    | some p => rw [hi] at hp; exact hfind p.1 s hp
  have hcookie : ∀ s, (stageCookie cur req (stagePath cur req)).1 = some s → s ∈ cur := by
    intro s hc
    unfold stageCookie at hc
    by_cases hcond : ((stagePath cur req).1.isNone || optFalsy (stagePath cur req).2) = true
    · rw [if_pos hcond] at hc
      simp only at hc
      cases hv : cookieSiteStrict req.cookie with
      | none => rw [hv] at hc; exact hpath s hc
      | some v => rw [hv] at hc; exact hfind _ s hc
    · rw [if_neg hcond] at hc
      exact hpath s hc
  have hsyncst : ∀ s, (stageSync cur req (stageCookie cur req (stagePath cur req))).1 = some s →
      s ∈ cur := by
    intro s hc
    unfold stageSync at hc
    simp only at hc
    by_cases hcond : (stageCookie cur req (stagePath cur req)).1.isNone = true
    · rw [if_pos hcond] at hc; exact hsync s hc
    · rw [if_neg hcond] at hc; exact hcookie s hc
  unfold stageFirst at h
  by_cases hcond : (stageSync cur req (stageCookie cur req (stagePath cur req))).1.isNone = true
  · rw [if_pos hcond] at h
    cases hf : cur.find? hasNeocores with
    | none => rw [hf] at h; cases h
    | some fs =>
      rw [hf] at h
      simp only [Option.some.injEq] at h
      subst h
      exact List.mem_of_find?_eq_some hf
  · rw [if_neg hcond] at h
    exact hsyncst site h

/-- Claim C6 theorem.  For every upgrade whose url carries the socket
subprotocol path, the coordinator resolves the binding in order through
the path-embedded tenant, the cookies, synchronous fallback resolution,
and the first-tenant-with-neocores fallback, the first resolving stage
deciding the dispatch key; and when no stage resolves (in particular
when no known tenant has any neocore) the raw socket is destroyed and
nothing is dispatched. -/
theorem c6_upgrade_resolution (keys : List (List Char × List Char)) (cur : List UpSite)
    (req : Req) (hs : containsSub (String.toList "/socket.io") req.url = true) :
    (∀ sl nc site, siteAndNeocoreFromPath req.url = some (sl, nc) →
        findSite cur sl = some site → nc ≠ [] →
        site.neocores.contains nc = true → keys.contains (site.name, nc) = true →
        upgradeHandler keys cur req = UpAction.dispatch site.name nc)
    ∧ (siteAndNeocoreFromPath req.url = none →
        ∀ v w site, cookieSiteStrict req.cookie = some v →
          findSite cur (trimList v) = some site →
          cookieNeocoreStrict req.cookie = some w → trimList w ≠ [] →
          site.neocores.contains (trimList w) = true →
          keys.contains (site.name, trimList w) = true →
          upgradeHandler keys cur req = UpAction.dispatch site.name (trimList w))
    ∧ (siteAndNeocoreFromPath req.url = none →
        cookieSiteStrict req.cookie = none → cookieNeocoreStrict req.cookie = none →
        ∀ site h, detectSiteSync req (findSite cur) = some site →
          site.neocores.head? = some h → h ≠ [] →
          keys.contains (site.name, h) = true →
          upgradeHandler keys cur req = UpAction.dispatch site.name h)
    ∧ (siteAndNeocoreFromPath req.url = none →
        cookieSiteStrict req.cookie = none → cookieNeocoreStrict req.cookie = none →
        detectSiteSync req (findSite cur) = none →
        ∀ fs h, cur.find? hasNeocores = some fs → fs.neocores.head? = some h → h ≠ [] →
          keys.contains (fs.name, h) = true →
          upgradeHandler keys cur req = UpAction.dispatch fs.name h)
    ∧ ((∀ s ∈ cur, s.neocores = []) → upgradeHandler keys cur req = UpAction.destroy) := by
  refine ⟨?_, ?_, ?_, ?_, ?_⟩
  · intro sl nc site hp hf hnc hmem hkey
    have h1 : stagePath cur req = (some site, some nc) := by
      unfold stagePath
      rw [hp]
      simp [hf]
    have hncf : optFalsy (some nc) = false := by
      unfold optFalsy
      cases nc with
      | nil => exact absurd rfl hnc
      | cons a t => simp
    have h2 : stageCookie cur req (stagePath cur req) = (some site, some nc) := by
      unfold stageCookie
      rw [h1]
      simp [hncf]
    have h3 : stageSync cur req (stageCookie cur req (stagePath cur req)) = (some site, some nc) := by
      unfold stageSync
      rw [h2]
      simp [hncf]
    have h4 : stageFirst cur (stageSync cur req (stageCookie cur req (stagePath cur req)))
        = (some site, some nc) := by
      unfold stageFirst
      rw [h3]
      simp
    unfold upgradeHandler
    rw [if_pos hs, h4]
    unfold upgradeFinal
    simp only
    rw [if_neg (by simpa [List.isEmpty_iff] using hnc)]
    rw [if_pos (by rw [hasNeocores_of_contains hmem, hmem]; rfl), if_pos hkey]
  · intro hp v w site hv hf hw hnc hmem hkey
    have h1 : stagePath cur req = (none, none) := by
      unfold stagePath; rw [hp]
    have h2 : stageCookie cur req (stagePath cur req) = (some site, some (trimList w)) := by
      unfold stageCookie
      rw [h1]
      simp only [Option.isNone_none, optFalsy, Bool.true_or, if_pos]
      rw [hv, hw]
      simp [hf]
    have hncf : optFalsy (some (trimList w)) = false := by
      unfold optFalsy
      cases hh : trimList w with
      | nil => exact absurd hh hnc
      | cons a t => simp
    have h3 : stageSync cur req (stageCookie cur req (stagePath cur req))
        = (some site, some (trimList w)) := by
      unfold stageSync
      rw [h2]
      simp [hncf]
    have h4 : stageFirst cur (stageSync cur req (stageCookie cur req (stagePath cur req)))
        = (some site, some (trimList w)) := by
      unfold stageFirst
      rw [h3]
      simp
    unfold upgradeHandler
    rw [if_pos hs, h4]
    unfold upgradeFinal
    simp only
    rw [if_neg (by simpa [List.isEmpty_iff] using hnc)]
    rw [if_pos (by rw [hasNeocores_of_contains hmem, hmem]; rfl), if_pos hkey]
  · intro hp hcv hcw site h hd hh hne hkey
    have h1 : stagePath cur req = (none, none) := by
      unfold stagePath; rw [hp]
    have h2 : stageCookie cur req (stagePath cur req) = (none, none) := by
      unfold stageCookie
      rw [h1]
      simp only [Option.isNone_none, optFalsy, Bool.true_or, if_pos]
      rw [hcv, hcw]
    have h3 : stageSync cur req (stageCookie cur req (stagePath cur req))
        = (some site, some h) := by
      unfold stageSync
      rw [h2]
      simp [hd, hh, optFalsy]
    have h4 : stageFirst cur (stageSync cur req (stageCookie cur req (stagePath cur req)))
        = (some site, some h) := by
      unfold stageFirst
      rw [h3]
      simp
    unfold upgradeHandler
    rw [if_pos hs, h4]
    unfold upgradeFinal
    simp only
    rw [if_neg (by simpa [List.isEmpty_iff] using hne)]
    have hmem := contains_of_head? hh
    rw [if_pos (by rw [hasNeocores_of_contains hmem, hmem]; rfl), if_pos hkey]
  · intro hp hcv hcw hd fs h hf hh hne hkey
    have h1 : stagePath cur req = (none, none) := by
      unfold stagePath; rw [hp]
    have h2 : stageCookie cur req (stagePath cur req) = (none, none) := by
      unfold stageCookie
      rw [h1]
      simp only [Option.isNone_none, optFalsy, Bool.true_or, if_pos]
      rw [hcv, hcw]
    have h3 : stageSync cur req (stageCookie cur req (stagePath cur req)) = (none, none) := by
      unfold stageSync
      rw [h2]
      simp [hd]
    have h4 : stageFirst cur (stageSync cur req (stageCookie cur req (stagePath cur req)))
        = (some fs, some h) := by
      unfold stageFirst
      rw [h3]
      simp [hf, hh]
    unfold upgradeHandler
    rw [if_pos hs, h4]
    unfold upgradeFinal
    simp only
    rw [if_neg (by simpa [List.isEmpty_iff] using hne)]
    have hmem := contains_of_head? hh
    rw [if_pos (by rw [hasNeocores_of_contains hmem, hmem]; rfl), if_pos hkey]
  · intro hall
    unfold upgradeHandler
    rw [if_pos hs]
    cases hst : stageFirst cur (stageSync cur req (stageCookie cur req (stagePath cur req))) with
    | mk ts nc =>
      cases ts with
      | none => unfold upgradeFinal; simp
      | some site =>
        have hmem : site ∈ cur := by
          apply pipeline_site_mem cur req
          rw [hst]
        have hempty : site.neocores = [] := hall site hmem
        cases nc with
        | none => unfold upgradeFinal; simp
        | some v =>
          unfold upgradeFinal
          simp only
          by_cases hv : v.isEmpty = true
          · rw [if_pos hv]
          · rw [if_neg hv]
            rw [if_neg]
            intro hcontra
            rw [Bool.and_eq_true] at hcontra
            rw [hempty] at hcontra
            exact absurd hcontra.2 (by simp)

/-- Concrete data for the claim C6 witness: one site with one neocore,
addressed by a tenant-prefixed socket path. -/
def c6Cur : List UpSite := [{ name := String.toList "site1", neocores := [String.toList "0"] }]

/-- Reusable raw proxy keys for the claim C6 witness. -/
def c6Keys : List (List Char × List Char) := [(String.toList "site1", String.toList "0")]

/-- Request of the claim C6 witness. -/
def c6Req : Req :=
  { url := String.toList "/vpn/site1/neocore/0/socket.io/x"
  , referer := [], origin := [], cookie := [] }

/-- Claim C6 witness: the path stage resolves and dispatches, and on a
collection with no neocores at all the handler destroys the socket. -/
theorem c6_witness :
    upgradeHandler c6Keys c6Cur c6Req
      = UpAction.dispatch (String.toList "site1") (String.toList "0")
    ∧ upgradeHandler c6Keys [{ name := String.toList "site1", neocores := [] }] c6Req
      = UpAction.destroy :=
  ⟨(c6_upgrade_resolution c6Keys c6Cur c6Req (by decide)).1
      (String.toList "site1") (String.toList "0")
      { name := String.toList "site1", neocores := [String.toList "0"] }
      (by decide) (by decide) (by decide) (by decide) (by decide),
   (c6_upgrade_resolution c6Keys [{ name := String.toList "site1", neocores := [] }] c6Req
      (by decide)).2.2.2.2 (by decide)⟩

/-! ## Upgrade event dispatch counting (claim C5)

The cited upgrade listeners (routeManager.js lines 946 to 995 and part
002 lines 459 to 510) keep no per-connection state: every upgrade event
runs the whole resolution and dispatch again.  The earlier part 001
revision instead guards the listener with a set of already handled
request objects (a WeakSet), added to just before dispatch. -/

/-- Effect of one upgrade event on the dispatch counter of a connection
under the cited listener: the handler reruns in full and increments the
counter whenever it dispatches. -/
def upgradeStepCount (keys : List (List Char × List Char)) (cur : List UpSite) (req : Req)
    (c : Nat) : Nat :=
  match upgradeHandler keys cur req with
  | UpAction.dispatch _ _ => c + 1
  | _ => c

/-- A site as the part 001 listener reads it: a slug and the enablement
flag of its single neocore. -/
structure P1Site where
  name : List Char
  neocoreEnabled : Bool
deriving DecidableEq

/-- Lookup of a part 001 site by slug. -/
def findP1 (sites : List P1Site) (n : List Char) : Option P1Site :=
  sites.find? (fun s => s.name == n)

/-- Truthiness of the enabled chain on an optional site. -/
def p1Enabled : Option P1Site → Bool
  | some s => s.neocoreEnabled
  | none => false

/-- Translation of the part 001 listener resolution (lines 238 to 277):
cookie first, then detectSite, then the referer directly, then the first
enabled site; a stage only runs while no enabled site is held, and a
stage that matches reassigns the site even when the lookup misses. -/
def p1Resolve (sites : List P1Site) (req : Req) : Option P1Site :=
  let t0 : Option P1Site :=
    match cookieSiteStrict req.cookie with
    | some v => findP1 sites (trimList v)
    | none => none
  let t1 := if p1Enabled t0 then t0 else detectSite req (findP1 sites)
  let t2 :=
    if p1Enabled t1 then t1
    else
      match findVpnSlug req.referer with
      | some sl => findP1 sites sl
      | none => t1
  if p1Enabled t2 then t2 else sites.find? (fun s => s.neocoreEnabled)

/-- Translation of one upgrade event under the part 001 listener with
its handled-set guard (lines 217 to 311): state is the set of handled
request identities and the dispatch counter.  A request already in the
set returns immediately; only a dispatch adds the request to the set and
increments the counter. -/
def p1HandlerStep (sites : List P1Site) (wsKeys : List (List Char)) (req : Req) (reqId : Nat)
    (st : List Nat × Nat) : List Nat × Nat :=
  if st.1.contains reqId then st
  else if !(startsWithCS (String.toList "/socket.io") req.url
      && !startsWithCS (String.toList "/vpn/") req.url) then st
  else
    match p1Resolve sites req with
    | some s =>
      if s.neocoreEnabled && wsKeys.contains s.name then (reqId :: st.1, st.2 + 1) else st
    | none => st

/-- Iterated firing of the same upgrade event under the part 001
guarded listener, starting from the empty handled set. -/
def p1Iterate (sites : List P1Site) (wsKeys : List (List Char)) (req : Req) (reqId : Nat) :
    Nat → List Nat × Nat
  | 0 => ([], 0)
  | n + 1 => p1HandlerStep sites wsKeys req reqId (p1Iterate sites wsKeys req reqId n)

/-- Concrete data for the claim C5 counterexample. -/
def c5Cur : List UpSite := [{ name := String.toList "s1", neocores := [String.toList "0"] }]

/-- Proxy keys for the claim C5 counterexample. -/
def c5Keys : List (List Char × List Char) := [(String.toList "s1", String.toList "0")]

/-- Request for the claim C5 counterexample. -/
def c5Req : Req :=
  { url := String.toList "/vpn/s1/neocore/0/socket.io/y"
  , referer := [], origin := [], cookie := [] }

/-- Claim C5 counterexample.  Under the cited listener a second upgrade
event fired for the same already-claimed connection re-enters resolution
and dispatch: the dispatch counter reaches two, not the claimed cap of
one. -/
theorem c5_counterexample :
    upgradeStepCount c5Keys c5Cur c5Req (upgradeStepCount c5Keys c5Cur c5Req 0) = 2
    ∧ ¬ (upgradeStepCount c5Keys c5Cur c5Req (upgradeStepCount c5Keys c5Cur c5Req 0) ≤ 1) := by
  refine ⟨by decide, by decide⟩

theorem p1Step_invariant (sites : List P1Site) (wsKeys : List (List Char)) (req : Req)
    (reqId : Nat) (st : List Nat × Nat)
    (hle : st.2 ≤ 1) (hm : st.2 = 1 → st.1.contains reqId = true) :
    (p1HandlerStep sites wsKeys req reqId st).2 ≤ 1
    ∧ ((p1HandlerStep sites wsKeys req reqId st).2 = 1 →
        (p1HandlerStep sites wsKeys req reqId st).1.contains reqId = true) := by
  unfold p1HandlerStep
  by_cases hmem : st.1.contains reqId = true
  · rw [if_pos hmem]
    exact ⟨hle, fun _ => hmem⟩
  · rw [if_neg hmem]
    by_cases hurl : (!(startsWithCS (String.toList "/socket.io") req.url
        && !startsWithCS (String.toList "/vpn/") req.url)) = true
    · rw [if_pos hurl]
      exact ⟨hle, hm⟩
    · rw [if_neg hurl]
      cases hres : p1Resolve sites req with
      | none => exact ⟨hle, hm⟩
      | some s =>
        simp only
        by_cases hen : (s.neocoreEnabled && wsKeys.contains s.name) = true
        · rw [if_pos hen]
          have hzero : st.2 = 0 := by
            rcases Nat.lt_or_ge st.2 1 with h | h
            · omega
            · exact absurd (hm (Nat.le_antisymm hle h)) hmem
          refine ⟨?_, fun _ => ?_⟩
          · show st.2 + 1 ≤ 1
            omega
          · show (reqId :: st.1).contains reqId = true
            simp [List.contains_cons]
        · rw [if_neg hen]
          exact ⟨hle, hm⟩

theorem p1Iterate_invariant (sites : List P1Site) (wsKeys : List (List Char)) (req : Req)
    (reqId : Nat) : ∀ n : Nat,
    (p1Iterate sites wsKeys req reqId n).2 ≤ 1
    ∧ ((p1Iterate sites wsKeys req reqId n).2 = 1 →
        (p1Iterate sites wsKeys req reqId n).1.contains reqId = true) := by
  intro n
  induction n with
  | zero => exact ⟨by simp [p1Iterate], by simp [p1Iterate]⟩
  | succ m ih =>
    exact p1Step_invariant sites wsKeys req reqId (p1Iterate sites wsKeys req reqId m) ih.1 ih.2

/-- Claim C5 amended theorem.  In the cited listeners each upgrade event
is dispatched at most once per event, but there is no per-connection
guard: whenever an event dispatches, firing the same event again
dispatches again, raising the per-connection dispatch count to two.  The
per-connection cap of one holds only for the part 001 revision, whose
handled-set guard keeps the dispatch counter of a connection at most one
over any number of repeated events. -/
theorem c5_upgrade_dispatch_guard :
    (∀ (keys : List (List Char × List Char)) (cur : List UpSite) (req : Req) (a b : List Char),
      upgradeHandler keys cur req = UpAction.dispatch a b →
      upgradeStepCount keys cur req (upgradeStepCount keys cur req 0) = 2)
    ∧ (∀ (sites : List P1Site) (wsKeys : List (List Char)) (req : Req) (reqId : Nat) (n : Nat),
        (p1Iterate sites wsKeys req reqId n).2 ≤ 1) := by
  constructor
  · intro keys cur req a b h
    unfold upgradeStepCount
    rw [h]
  · intro sites wsKeys req reqId n
    exact (p1Iterate_invariant sites wsKeys req reqId n).1

/-- Claim C5 witness: a dispatching event on the concrete data doubles
the counter under the cited listener, while the part 001 guard keeps
three repeats of the same event at one dispatch. -/
theorem c5_witness :
    upgradeStepCount c5Keys c5Cur c5Req (upgradeStepCount c5Keys c5Cur c5Req 0) = 2
    ∧ (p1Iterate [{ name := String.toList "s1", neocoreEnabled := true }]
        [String.toList "s1"]
        { url := String.toList "/socket.io/?EIO=4", referer := [], origin := []
        , cookie := String.toList "vpn-site=s1" } 7 3).2 ≤ 1 :=
  ⟨c5_upgrade_dispatch_guard.1 c5Keys c5Cur c5Req (String.toList "s1") (String.toList "0")
     (by decide),
   c5_upgrade_dispatch_guard.2 [{ name := String.toList "s1", neocoreEnabled := true }]
     [String.toList "s1"]
     { url := String.toList "/socket.io/?EIO=4", referer := [], origin := []
     , cookie := String.toList "vpn-site=s1" } 7 3⟩

/-! ## Content rewriting (proxyFactory.js rewriteContent, lines 324 to
442)

Each replace call of the source is modelled by a left-to-right scanner
over the body driven by a matcher.  A matcher inspects the head of the
input and either reports no match there, or returns the matched text,
its replacement, and the rest of the input.  As in the JavaScript
engine, scanning continues right after a match and advances one
character when there is no match at the current position.  Every regex
of rewriteContent is deterministic once greedy character-class runs are
taken maximal (the backreference to the opening quote cannot be
satisfied by a shorter run, because every character of the run is a
non-quote), except the iframe rule, where the greedy any-but-gt run
backtracks from the right; that search is modelled explicitly. -/

/-- A matcher: at the head of the input, either no match, or the matched
text together with its replacement and the rest of the input. -/
def Matcher : Type := List Char → Option (List Char × List Char × List Char)

/-- Fueled scanner applying a matcher over the whole input. -/
def scanRepl (m : Matcher) : Nat → List Char → List Char
  | 0, s => s
  | _ + 1, [] => []
  | fuel + 1, c :: cs =>
    match m (c :: cs) with
    | some (matched, repl, rest) =>
      if matched.isEmpty then c :: scanRepl m fuel cs
      else repl ++ scanRepl m fuel rest
    | none => c :: scanRepl m fuel cs

/-- One global replace: run the scanner with enough fuel. -/
def runRule (m : Matcher) (s : List Char) : List Char := scanRepl m s.length s

/-- Does the matcher fire anywhere in the input? -/
def matcherFires (m : Matcher) : List Char → Bool
  | [] => false
  | c :: cs => (m (c :: cs)).isSome || matcherFires m cs

/-- Non-quote character class. -/
def nonQuote (c : Char) : Bool := !isQuote c

/-- The components of an attribute-rule match. -/
structure AttrM where
  lit : List Char
  q : Char
  path : List Char
  rest : List Char

/-- Generic attribute matcher covering the href, src and action rules:
the attribute name (case-insensitively, the actual text being captured),
an equals sign, a quote, a negative lookahead, then a nonempty greedy
run of non-quote characters closed by the same quote (the
backreference). -/
def tryAttr (attr : List Char) (la : List Char → Bool) : List Char → Option AttrM := fun s =>
  match parseLitCI attr s with
  | none => none
  | some (a, s1) =>
    match s1 with
    | '=' :: q :: s3 =>
      if isQuote q then
        if la s3 then none
        else
          let r := takeRun nonQuote s3
          match r.2 with
          | q2 :: s5 =>
            if r.1.isEmpty then none
            else if q2 = q then some { lit := a ++ ['='], q := q, path := r.1, rest := s5 }
            else none
          | [] => none
      else none
    | _ => none

/-- Lookahead of the href rule. -/
def laHref (s : List Char) : Bool :=
  startsWithCI (String.toList "http") s || startsWithCI (String.toList "https") s ||
  startsWithCI (String.toList "//") s || startsWithCI (String.toList "#") s ||
  startsWithCI (String.toList "javascript:") s || startsWithCI (String.toList "vpn/") s

/-- Lookahead of the src rule. -/
def laSrc (s : List Char) : Bool :=
  startsWithCI (String.toList "http") s || startsWithCI (String.toList "https") s ||
  startsWithCI (String.toList "//") s || startsWithCI (String.toList "data:") s ||
  startsWithCI (String.toList "javascript:") s || startsWithCI (String.toList "vpn/") s

/-- Lookahead of the action rule. -/
def laAction (s : List Char) : Bool :=
  startsWithCI (String.toList "http") s || startsWithCI (String.toList "https") s ||
  startsWithCI (String.toList "//") s || startsWithCI (String.toList "javascript:") s ||
  startsWithCI (String.toList "vpn/") s

/-- Lookahead of the iframe rule. -/
def laIframe (s : List Char) : Bool :=
  startsWithCI (String.toList "http") s || startsWithCI (String.toList "https") s ||
  startsWithCI (String.toList "//") s || startsWithCI (String.toList "data:") s ||
  startsWithCI (String.toList "vpn/") s

/-- Callback guard of the href rule. -/
def guardHref (p : List Char) : Bool :=
  startsWithCS (String.toList "/vpn/") p || startsWithCS (String.toList "http://") p ||
  startsWithCS (String.toList "https://") p || startsWithCS (String.toList "//") p ||
  startsWithCS (String.toList "#") p || startsWithCS (String.toList "javascript:") p

/-- Callback guard of the src rule. -/
def guardSrc (p : List Char) : Bool :=
  startsWithCS (String.toList "/vpn/") p || startsWithCS (String.toList "http://") p ||
  startsWithCS (String.toList "https://") p || startsWithCS (String.toList "//") p ||
  startsWithCS (String.toList "data:") p || startsWithCS (String.toList "javascript:") p

/-- Callback guard of the action rule. -/
def guardAction (p : List Char) : Bool :=
  startsWithCS (String.toList "/vpn/") p || startsWithCS (String.toList "http://") p ||
  startsWithCS (String.toList "https://") p || startsWithCS (String.toList "//") p ||
  startsWithCS (String.toList "javascript:") p

/-- Callback guard of the iframe rule. -/
def guardIframe (p : List Char) : Bool :=
  startsWithCS (String.toList "/vpn/") p || startsWithCS (String.toList "http://") p ||
  startsWithCS (String.toList "https://") p || startsWithCS (String.toList "//") p ||
  startsWithCS (String.toList "data:") p

/-- Callback guard of the fetch rule. -/
def guardFetch (p : List Char) : Bool :=
  startsWithCS (String.toList "/vpn/") p || startsWithCS (String.toList "http://") p ||
  startsWithCS (String.toList "https://") p || startsWithCS (String.toList "//") p

/-- Absolute form of a path: prepend a slash when missing. -/
def absPath (p : List Char) : List Char :=
  match p with
  | '/' :: _ => p
  | _ => '/' :: p

/-- Replacement of the generic attribute rules: leave the match alone
when the guard accepts, otherwise prefix the absolute path with the
tenant prefix. -/
def attrRepl (pfx : List Char) (guard : List Char → Bool) (am : AttrM) : List Char :=
  if guard am.path then am.lit ++ am.q :: am.path ++ [am.q]
  else am.lit ++ am.q :: (pfx ++ absPath am.path) ++ [am.q]

/-- Attribute rule matcher. -/
def attrMatcher (attr : List Char) (la : List Char → Bool) (guard : List Char → Bool)
    (pfx : List Char) : Matcher := fun s =>
  match tryAttr attr la s with
  | some am => some (am.lit ++ am.q :: am.path ++ [am.q], attrRepl pfx guard am, am.rest)
  | none => none

/-- Tail of the iframe rule after the any-but-gt run: a whitespace
character, the src attribute, equals, quote, lookahead, nonempty
non-quote run and the backreference quote.  Returns the consumed prefix
up to and including the equals sign, the quote, the path, and the rest
of the input. -/
def tryIframeTail : List Char → Option (List Char × Char × List Char × List Char) := fun s =>
  match s with
  | w :: s1 =>
    if isWsChar w then
      match parseLitCI (String.toList "src") s1 with
      | some (asrc, s2) =>
        match s2 with
        | '=' :: q :: s4 =>
          if isQuote q then
            if laIframe s4 then none
            else
              let r := takeRun nonQuote s4
              match r.2 with
              | q2 :: s6 =>
                if r.1.isEmpty then none
                else if q2 = q then some (w :: (asrc ++ ['=']), q, r.1, s6)
                else none
              | [] => none
          else none
        | _ => none
      | none => none
    else none
  | [] => none

/-- All splits of a list, longest first component first: the backtrack
order of a greedy star. -/
def splitsDesc (l : List Char) : List (List Char × List Char) :=
  ((List.range (l.length + 1)).map (fun j => (l.take j, l.drop j))).reverse

/-- The iframe rule matcher: the iframe literal, a greedy any-but-gt run
backtracking from the right, then the tail. -/
def iframeMatcher (pfx : List Char) : Matcher := fun s =>
  match parseLitCI (String.toList "<iframe") s with
  | none => none
  | some (a0, s1) =>
    let r := takeRun (fun c => c != '>') s1
    (splitsDesc r.1).findSome? (fun pr =>
      match tryIframeTail (pr.2 ++ r.2) with
      | some (tail, q, path, rest) =>
        let lit := a0 ++ pr.1 ++ tail
        let matched := lit ++ q :: path ++ [q]
        let repl :=
          if guardIframe path then matched
          else lit ++ q :: (pfx ++ absPath path) ++ [q]
        some (matched, repl, rest)
      | none => none)

/-- Character class of the websocket path: everything but quotes,
whitespace and the closing parenthesis. -/
def wsPathClass (c : Char) : Bool := !(isQuote c || isWsChar c || c = ')')

/-- One protocol alternative of the websocket rule: the protocol
literal, colon-slash-slash, a nonempty non-slash host run, then a slash
and a nonempty path run.  The replacement keeps the protocol, replaces
the host by the request host, and prefixes the path with the tenant
prefix. -/
def tryWsProto (host pfx proto : List Char) (s : List Char) :
    Option (List Char × List Char × List Char) :=
  match parseLitCS proto s with
  | none => none
  | some s1 =>
    match parseLitCS (String.toList "://") s1 with
    | none => none
    | some s2 =>
      let h := takeRun (fun c => c != '/') s2
      if h.1.isEmpty then none
      else
        match h.2 with
        | '/' :: s4 =>
          let p := takeRun wsPathClass s4
          if p.1.isEmpty then none
          else
            some
              ( proto ++ String.toList "://" ++ h.1 ++ '/' :: p.1
              , proto ++ String.toList "://" ++ host ++ pfx ++ '/' :: p.1
              , p.2 )
        | _ => none

/-- The websocket rule matcher: the ws alternative first, then wss, as
the alternation of the source regex. -/
def wsMatcher (host pfx : List Char) : Matcher := fun s =>
  match tryWsProto host pfx (String.toList "ws") s with
  | some r => some r
  | none => tryWsProto host pfx (String.toList "wss") s

/-- One method alternative of the fetch rule: the method name, optional
whitespace, an opening parenthesis, a quote, a nonempty non-quote run
and any closing quote (the closing quote class is independent of the
opening one).  The replacement drops the whitespace and normalizes both
quotes to double quotes, as the source template string does. -/
def tryFetchMethod (pfx mname : List Char) (s : List Char) :
    Option (List Char × List Char × List Char) :=
  match parseLitCI mname s with
  | none => none
  | some (ma, s1) =>
    let w := takeRun isWsChar s1
    match w.2 with
    | '(' :: s3 =>
      match s3 with
      | q1 :: s4 =>
        if isQuote q1 then
          let u := takeRun nonQuote s4
          match u.2 with
          | q2 :: s6 =>
            if u.1.isEmpty then none
            else if isQuote q2 then
              some
                ( ma ++ w.1 ++ '(' :: q1 :: u.1 ++ [q2]
                , if guardFetch u.1 then ma ++ w.1 ++ '(' :: q1 :: u.1 ++ [q2]
                  else ma ++ '(' :: dq :: (pfx ++ absPath u.1) ++ [dq]
                , s6 )
            else none
          | [] => none
        else none
      | [] => none
    | _ => none

/-- The fetch rule matcher, trying the method alternatives in the order
of the source alternation. -/
def fetchMatcher (pfx : List Char) : Matcher := fun s =>
  match tryFetchMethod pfx (String.toList "fetch") s with
  | some r => some r
  | none =>
    match tryFetchMethod pfx (String.toList "XMLHttpRequest") s with
    | some r => some r
    | none => tryFetchMethod pfx (String.toList "open") s

/-- Tenant prefix of the devices branch. -/
def devicesPfx (siteName : List Char) : List Char :=
  String.toList "/vpn/" ++ siteName ++ String.toList "/devices"

/-- The devices branch of rewriteContent up to but excluding the
websocket rule: the href, src, action and iframe rules in source
order. -/
def devicesPreWs (siteName : List Char) (body : List Char) : List Char :=
  runRule (iframeMatcher (devicesPfx siteName))
    (runRule (attrMatcher (String.toList "action") laAction guardAction (devicesPfx siteName))
      (runRule (attrMatcher (String.toList "src") laSrc guardSrc (devicesPfx siteName))
        (runRule (attrMatcher (String.toList "href") laHref guardHref (devicesPfx siteName)) body)))

/-- Translation of the devices branch of rewriteContent (proxyFactory.js
lines 335 to 407): the six substitutions in source order. -/
def rewriteContentDevices (siteName host body : List Char) : List Char :=
  runRule (fetchMatcher (devicesPfx siteName))
    (runRule (wsMatcher host (devicesPfx siteName)) (devicesPreWs siteName body))

/-- Case-insensitive suffix test. -/
def endsWithCI (pat s : List Char) : Bool := startsWithCI pat.reverse s.reverse

/-- Last slash-separated segment of a path (split on slash, then pop). -/
def lastSlashSegment (p : List Char) : List Char :=
  ((takeRun (fun c => c != '/') p.reverse).1).reverse

/-- One attribute alternative of the neocore main-asset rules: the
attribute, equals, quote, the literal static main path, a nonempty
non-quote run ending with the extension, and the backreference quote.
The replacement keeps only the last path segment at the root. -/
def tryMain (attr sub ext : List Char) (s : List Char) :
    Option (List Char × List Char × List Char) :=
  match parseLitCI attr s with
  | none => none
  | some (a, s1) =>
    match s1 with
    | '=' :: q :: s3 =>
      if isQuote q then
        match parseLitCI sub s3 with
        | none => none
        | some (plit, s4) =>
          let r := takeRun nonQuote s4
          match r.2 with
          | q2 :: s6 =>
            if q2 = q then
              if endsWithCI ext r.1 && decide (ext.length < r.1.length) then
                some
                  ( a ++ '=' :: q :: (plit ++ r.1) ++ [q]
                  , a ++ '=' :: q :: '/' :: lastSlashSegment (plit ++ r.1) ++ [q]
                  , s6 )
              else none
            else none
          | [] => none
      else none
    | _ => none

/-- The neocore main script rule matcher. -/
def mainJsMatcher : Matcher := fun s =>
  match tryMain (String.toList "src") (String.toList "/static/js/main.") (String.toList ".js") s with
  | some r => some r
  | none => tryMain (String.toList "href") (String.toList "/static/js/main.") (String.toList ".js") s

/-- The neocore main stylesheet rule matcher. -/
def mainCssMatcher : Matcher := fun s =>
  match tryMain (String.toList "src") (String.toList "/static/css/main.") (String.toList ".css") s with
  | some r => some r
  | none => tryMain (String.toList "href") (String.toList "/static/css/main.") (String.toList ".css") s

/-- One attribute alternative of the neocore api rule: attribute,
equals, quote, the literal api path, a nonempty non-quote run and the
backreference quote; rewritten unconditionally by the replacement
template. -/
def tryApi (pfx attr : List Char) (s : List Char) :
    Option (List Char × List Char × List Char) :=
  match parseLitCI attr s with
  | none => none
  | some (a, s1) =>
    match s1 with
    | '=' :: q :: s3 =>
      if isQuote q then
        match parseLitCI (String.toList "/api/") s3 with
        | none => none
        | some (plit, s4) =>
          let r := takeRun nonQuote s4
          match r.2 with
          | q2 :: s6 =>
            if q2 = q then
              if r.1.isEmpty then none
              else
                some
                  ( a ++ '=' :: q :: (plit ++ r.1) ++ [q]
                  , a ++ '=' :: q :: (pfx ++ (plit ++ r.1)) ++ [q]
                  , s6 )
            else none
          | [] => none
      else none
    | _ => none

/-- The neocore api rule matcher. -/
def apiMatcher (pfx : List Char) : Matcher := fun s =>
  match tryApi pfx (String.toList "src") s with
  | some r => some r
  | none =>
    match tryApi pfx (String.toList "href") s with
    | some r => some r
    | none => tryApi pfx (String.toList "action") s

/-- Lookahead of the neocore other-assets rule, applied after the
leading slash of the path. -/
def laOther (s : List Char) : Bool :=
  startsWithCI (String.toList "vpn/") s || startsWithCI (String.toList "http") s ||
  startsWithCI (String.toList "https") s || startsWithCI (String.toList "//") s ||
  startsWithCI (String.toList "main.") s

/-- One attribute alternative of the neocore other-assets rule:
attribute, equals, quote, a slash, the negative lookahead, a nonempty
non-quote run and the backreference quote, with the callback guard. -/
def tryOther (pfx attr : List Char) (s : List Char) :
    Option (List Char × List Char × List Char) :=
  match parseLitCI attr s with
  | none => none
  | some (a, s1) =>
    match s1 with
    | '=' :: q :: '/' :: s4 =>
      if isQuote q then
        if laOther s4 then none
        else
          let r := takeRun nonQuote s4
          match r.2 with
          | q2 :: s6 =>
            if q2 = q then
              if r.1.isEmpty then none
              else
                some
                  ( a ++ '=' :: q :: '/' :: r.1 ++ [q]
                  , if guardFetch ('/' :: r.1) then a ++ '=' :: q :: '/' :: r.1 ++ [q]
                    else a ++ '=' :: q :: (pfx ++ '/' :: r.1) ++ [q]
                  , s6 )
            else none
          | [] => none
      else none
    | _ => none

/-- The neocore other-assets rule matcher. -/
def otherMatcher (pfx : List Char) : Matcher := fun s =>
  match tryOther pfx (String.toList "src") s with
  | some r => some r
  | none => tryOther pfx (String.toList "href") s

/-- Tenant prefix of the neocore branch. -/
def neocorePfx (siteName : List Char) : List Char :=
  String.toList "/vpn/" ++ siteName ++ String.toList "/neocore"

/-- Translation of the neocore branch of rewriteContent (proxyFactory.js
lines 409 to 439): the five substitutions in source order. -/
def rewriteContentNeocore (siteName host body : List Char) : List Char :=
  runRule (wsMatcher host (neocorePfx siteName))
    (runRule (otherMatcher (neocorePfx siteName))
      (runRule (apiMatcher (neocorePfx siteName))
        (runRule mainCssMatcher (runRule mainJsMatcher body))))

/-- Service kinds of rewriteContent. -/
inductive ServiceType
  | neocore
  | devices
deriving DecidableEq

/-- Translation of rewriteContent: dispatch on the service type. -/
def rewriteContent (body siteName host : List Char) (serviceType : ServiceType) : List Char :=
  match serviceType with
  | ServiceType.devices => rewriteContentDevices siteName host body
  | ServiceType.neocore => rewriteContentNeocore siteName host body

/-- Failing input of claim C2: a body with a websocket url in a script
string. -/
def c2Body : List Char := String.toList "var u = \"ws://10.9.0.5:5001/socket.io/x\";"

/-- Claim C2 evaluation at the failing input.  The websocket rule has no
tenant-prefix guard, so rewriting an already rewritten body prefixes the
websocket path a second time: the second application is not the
identity, contradicting idempotence of the rewriter. -/
theorem c2_ws_rewrite_not_idempotent :
    rewriteContent
      (rewriteContent c2Body (String.toList "site1") (String.toList "gw.example")
        ServiceType.devices)
      (String.toList "site1") (String.toList "gw.example") ServiceType.devices
    ≠ rewriteContent c2Body (String.toList "site1") (String.toList "gw.example")
        ServiceType.devices := by
  decide

/-- Body of the claim C3 counterexample: a protocol-relative external
reference inside a websocket url in a script string. -/
def c3Body : List Char := String.toList "x = \"ws://external.example/x.png\";"

/-- The protected external substring of the claim C3 counterexample. -/
def c3Pat : List Char := String.toList "//external.example/x.png"

/-- Claim C3 counterexample.  The body contains the protocol-relative
external substring in a script string, a rewritten position, yet the
devices rewrite replaces the websocket host and the rewritten body no
longer contains that substring unchanged. -/
theorem c3_counterexample :
    containsSub c3Pat c3Body = true
    ∧ containsSub c3Pat
        (rewriteContentDevices (String.toList "site1") (String.toList "gw.example") c3Body)
      = false := by
  refine ⟨by decide, by decide⟩

/-! ## Substring preservation infrastructure for claim C3 -/

theorem startsWithCS_iff {pat s : List Char} :
    startsWithCS pat s = true ↔ ∃ t, s = pat ++ t := by
  unfold startsWithCS
  rw [List.isPrefixOf_iff_prefix]
  constructor
  · intro h
    obtain ⟨t, ht⟩ := h
    exact ⟨t, ht.symm⟩
  · intro h
    obtain ⟨t, ht⟩ := h
    exact ⟨t, ht.symm⟩

theorem containsSub_iff {pat : List Char} : ∀ {s : List Char},
    containsSub pat s = true ↔ ∃ pre post, s = pre ++ pat ++ post := by
  intro s
  induction s with
  | nil =>
    simp only [containsSub, List.isEmpty_iff]
    constructor
    · intro h
      exact ⟨[], [], by simp [h]⟩
    · intro h
      obtain ⟨pre, post, hp⟩ := h
      rcases List.append_eq_nil.mp (List.append_eq_nil.mp hp.symm).1 with ⟨_, h2⟩
      exact h2
  | cons c cs ih =>
    simp only [containsSub, Bool.or_eq_true]
    constructor
    · intro h
      rcases h with h | h
      · obtain ⟨t, ht⟩ := startsWithCS_iff.mp h
        exact ⟨[], t, by simp [ht]⟩
      · obtain ⟨pre, post, hp⟩ := ih.mp h
        exact ⟨c :: pre, post, by simp [hp]⟩
    · intro h
      obtain ⟨pre, post, hp⟩ := h
      cases pre with
      | nil =>
        left
        exact startsWithCS_iff.mpr ⟨post, by simpa using hp⟩
      | cons p pre' =>
        right
        rw [List.cons_append, List.cons_append, List.cons.injEq] at hp
        exact ih.mpr ⟨pre', post, hp.2⟩

theorem containsSub_append_left {pat s t : List Char}
    (h : containsSub pat s = true) : containsSub pat (s ++ t) = true := by
  obtain ⟨pre, post, hp⟩ := containsSub_iff.mp h
  exact containsSub_iff.mpr ⟨pre, post ++ t, by simp [hp]⟩

theorem containsSub_append_right {pat s t : List Char}
    (h : containsSub pat t = true) : containsSub pat (s ++ t) = true := by
  obtain ⟨pre, post, hp⟩ := containsSub_iff.mp h
  exact containsSub_iff.mpr ⟨s ++ pre, post, by simp [hp]⟩

theorem containsSub_of_startsWith {pat s : List Char}
    (h : startsWithCS pat s = true) : containsSub pat s = true := by
  obtain ⟨t, ht⟩ := startsWithCS_iff.mp h
  exact containsSub_iff.mpr ⟨[], t, by simp [ht]⟩

theorem containsSub_nil_pat {s : List Char} : containsSub [] s = true :=
  containsSub_iff.mpr ⟨[], s, rfl⟩

theorem startsWithCS_append_of {pat A Z : List Char}
    (h : startsWithCS pat A = true) : startsWithCS pat (A ++ Z) = true := by
  obtain ⟨t, ht⟩ := startsWithCS_iff.mp h
  exact startsWithCS_iff.mpr ⟨t ++ Z, by simp [ht]⟩

theorem occurs_drop_bad {pat : List Char} (hne : pat ≠ []) :
    ∀ (B Y : List Char), (∀ c ∈ B, c ∈ pat → False) →
      containsSub pat (B ++ Y) = true → containsSub pat Y = true := by
  intro B
  induction B with
  | nil => intro Y _ h; simpa using h
  | cons b B' ih =>
    intro Y hdisj h
    simp only [List.cons_append, containsSub, Bool.or_eq_true] at h
    rcases h with h | h
    · exfalso
      obtain ⟨t, ht⟩ := startsWithCS_iff.mp h
      cases pat with
      | nil => exact hne rfl
      | cons p pat' =>
        rw [List.cons_append, List.cons.injEq] at ht
        exact hdisj b (List.mem_cons_self ..) (ht.1 ▸ List.mem_cons_self ..)
    · exact ih Y (fun c hc => hdisj c (List.mem_cons_of_mem _ hc)) h

theorem occurs_sep {pat X Sep Y : List Char} (hsep : Sep ≠ [])
    (hdisj : ∀ c ∈ Sep, c ∈ pat → False)
    (h : containsSub pat (X ++ Sep ++ Y) = true) :
    containsSub pat X = true ∨ containsSub pat Y = true := by
  by_cases hne : pat = []
  · subst hne
    exact Or.inl containsSub_nil_pat
  · induction X with
    | nil =>
      right
      rw [List.nil_append] at h
      exact occurs_drop_bad hne Sep Y hdisj h
    | cons x X' ih =>
      rw [List.cons_append, List.cons_append, containsSub, Bool.or_eq_true] at h
      rcases h with h | h
      · obtain ⟨t, ht⟩ := startsWithCS_iff.mp h
        rcases List.append_eq_append_iff.mp (show (x :: X') ++ (Sep ++ Y) = pat ++ t by
            simpa using ht) with ⟨a', ha1, ha2⟩ | ⟨c', hc1, hc2⟩
        · cases a' with
          | nil =>
            left
            rw [List.append_nil] at ha1
            exact containsSub_of_startsWith (startsWithCS_iff.mpr ⟨[], by simp [ha1]⟩)
          | cons a a'' =>
            exfalso
            cases Sep with
            | nil => exact hsep rfl
            | cons sb Sep' =>
              rw [List.cons_append] at ha2
              injection ha2 with hhead _
              refine hdisj sb (List.mem_cons_self ..) ?_
              rw [ha1, hhead]
              exact List.mem_cons_of_mem _ (List.mem_append_right _ (List.mem_cons_self ..))
        · left
          apply containsSub_of_startsWith
          exact startsWithCS_iff.mpr ⟨c', hc1⟩
      · rcases ih h with h1 | h1
        · left
          rcases containsSub_iff.mp h1 with ⟨pre, post, hp⟩
          exact containsSub_iff.mpr ⟨x :: pre, post, by simp [hp]⟩
        · right; exact h1

/-- Characters a protected external substring may use: no quotes, no
whitespace, no parentheses (absolute urls such as
https://external.example/x.png, protocol-relative urls and plain data
uris satisfy this). -/
def goodSubChar (c : Char) : Bool := !(isQuote c || isWsChar c || c = '(' || c = ')')

/-- Well-shapedness of a matcher: every match decomposes into a literal
part, a middle of whitespace and parentheses, an opening quote, a
payload free of quotes and a closing quote; the replacement keeps the
literal part at the front and the payload contiguous between quotes.
All substitution rules of the devices branch except the websocket rule
have this shape. -/
def MatcherOk (m : Matcher) : Prop :=
  ∀ s matched repl rest, m s = some (matched, repl, rest) →
    s = matched ++ rest ∧
    ∃ A M q P q2 M2 Q I Q2,
      matched = A ++ (M ++ q :: (P ++ [q2]))
      ∧ repl = A ++ (M2 ++ Q :: (I ++ (P ++ [Q2])))
      ∧ isQuote q = true ∧ isQuote q2 = true ∧ isQuote Q = true ∧ isQuote Q2 = true
      ∧ (∀ c ∈ P, isQuote c = false)
      ∧ (∀ c ∈ M, isWsChar c = true ∨ c = '(')
      ∧ (∀ c ∈ M2, isWsChar c = true ∨ c = '(')

theorem good_no_quote {pat : List Char} (hg : ∀ c ∈ pat, goodSubChar c = true)
    {c : Char} (hc : c ∈ pat) : isQuote c = false := by
  have hh := hg c hc
  unfold goodSubChar at hh
  cases h : isQuote c with
  | false => rfl
  | true => rw [h] at hh; simp at hh

theorem good_no_ws {pat : List Char} (hg : ∀ c ∈ pat, goodSubChar c = true)
    {c : Char} (hc : c ∈ pat) : isWsChar c = false := by
  have hh := hg c hc
  unfold goodSubChar at hh
  cases h : isWsChar c with
  | false => rfl
  | true => rw [h] at hh; simp at hh

theorem good_no_paren {pat : List Char} (hg : ∀ c ∈ pat, goodSubChar c = true)
    {c : Char} (hc : c ∈ pat) : c ≠ '(' := by
  have hh := hg c hc
  unfold goodSubChar at hh
  intro hcontra
  rw [hcontra] at hh
  simp at hh

theorem quote_not_good {q : Char} (hq : isQuote q = true) : goodSubChar q = false := by
  unfold goodSubChar
  rw [hq]
  rfl

theorem ws_not_good {c : Char} (hc : isWsChar c = true) : goodSubChar c = false := by
  unfold goodSubChar
  rw [hc]
  simp

theorem oparen_not_good : goodSubChar '(' = false := by decide

theorem cparen_not_good : goodSubChar ')' = false := by decide

theorem prefix_reach {T A : List Char} {b : Char} {t' : List Char}
    (hgood : ∀ c ∈ T, goodSubChar c = true)
    (hb : goodSubChar b = false)
    (hpre : startsWithCS T (A ++ b :: t') = true) :
    startsWithCS T A = true := by
  obtain ⟨u, hu⟩ := startsWithCS_iff.mp hpre
  rcases List.append_eq_append_iff.mp hu with ⟨a', ha1, ha2⟩ | ⟨c', hc1, _⟩
  · cases a' with
    | nil =>
      rw [List.append_nil] at ha1
      exact startsWithCS_iff.mpr ⟨[], by simp [ha1]⟩
    | cons a a'' =>
      exfalso
      rw [List.cons_append] at ha2
      injection ha2 with hhead _
      have hmem : b ∈ T := by
        rw [ha1, hhead]
        exact List.mem_append_right _ (List.mem_cons_self ..)
      rw [hgood b hmem] at hb
      cases hb
  · exact startsWithCS_iff.mpr ⟨c', hc1⟩

theorem matched_ne_nil {matched A M P : List Char} {q q2 : Char}
    (hmeq : matched = A ++ (M ++ q :: (P ++ [q2]))) : matched ≠ [] := by
  intro hcontra
  rw [hcontra] at hmeq
  have := List.append_eq_nil.mp hmeq.symm
  have := List.append_eq_nil.mp this.2
  cases this.2

theorem containsSub_cons_of {pat t : List Char} {c : Char}
    (h : containsSub pat t = true) : containsSub pat (c :: t) = true := by
  unfold containsSub
  rw [h]
  simp

/-- Transitivity of substring containment. -/
theorem containsSub_trans {a b c : List Char} (h1 : containsSub a b = true)
    (h2 : containsSub b c = true) : containsSub a c = true := by
  obtain ⟨p1, q1, hb⟩ := containsSub_iff.mp h1
  obtain ⟨p2, q2, hc⟩ := containsSub_iff.mp h2
  exact containsSub_iff.mpr ⟨p2 ++ p1, q1 ++ q2, by rw [hc, hb]; simp⟩

/-- Glue a list of separator-run pairs into one list. -/
def runsGlue (ps : List (List Char × List Char)) : List Char :=
  ps.foldr (fun p acc => p.1 ++ (p.2 ++ acc)) []

/-- A separator segment: nonempty and free of protected characters. -/
abbrev SepOk (N : List Char) : Prop := N ≠ [] ∧ ∀ c ∈ N, goodSubChar c = false

/-- Generalized well-shapedness of a matcher: every match decomposes
into a head literal that the replacement keeps as its prefix, then an
alternation of separator segments (nonempty, free of protected
characters) and payload segments each of which occurs contiguously in
the replacement, closed by a final separator segment.  Every
substitution rule of the devices branch except the websocket rule, and
every rule of the asset rewriter, has this shape. -/
def MatcherRunsOk (m : Matcher) : Prop :=
  ∀ s matched repl rest, m s = some (matched, repl, rest) →
    s = matched ++ rest ∧
    ∃ R0 ps Nf T,
      matched = R0 ++ (runsGlue ps ++ Nf) ∧
      repl = R0 ++ T ∧
      SepOk Nf ∧
      ∀ p ∈ ps, SepOk p.1 ∧ containsSub p.2 repl = true

/-- An occurrence of a protected pattern in a glued decomposition lies
in the head, in one of the payload segments, or in the tail. -/
theorem glue_occurs {pat : List Char} (hg : ∀ c ∈ pat, goodSubChar c = true) :
    ∀ (ps : List (List Char × List Char)) (R0 Nf Y : List Char),
      SepOk Nf → (∀ p ∈ ps, SepOk p.1) →
      containsSub pat (R0 ++ (runsGlue ps ++ (Nf ++ Y))) = true →
      containsSub pat R0 = true ∨ (∃ p ∈ ps, containsSub pat p.2 = true) ∨
        containsSub pat Y = true := by
  intro ps
  induction ps with
  | nil =>
    intro R0 Nf Y hNf _ h
    have hgl : runsGlue ([] : List (List Char × List Char)) = [] := rfl
    rw [hgl, List.nil_append, ← List.append_assoc] at h
    have hdisj : ∀ c ∈ Nf, c ∈ pat → False := by
      intro c hcN hcp
      have h1 := hNf.2 c hcN
      have h2 := hg c hcp
      rw [h1] at h2
      cases h2
    rcases occurs_sep hNf.1 hdisj h with h1 | h2
    · exact Or.inl h1
    · exact Or.inr (Or.inr h2)
  | cons p ps' ih =>
    intro R0 Nf Y hNf hps h
    have hgl : runsGlue (p :: ps') = p.1 ++ (p.2 ++ runsGlue ps') := rfl
    rw [hgl] at h
    simp only [List.append_assoc] at h
    rw [← List.append_assoc] at h
    have hp := hps p (List.mem_cons_self ..)
    have hdisj : ∀ c ∈ p.1, c ∈ pat → False := by
      intro c hcN hcp
      have h1 := hp.2 c hcN
      have h2 := hg c hcp
      rw [h1] at h2
      cases h2
    rcases occurs_sep hp.1 hdisj h with h1 | h2
    · exact Or.inl h1
    · rcases ih p.2 Nf Y hNf (fun p' hp' => hps p' (List.mem_cons_of_mem _ hp')) h2 with
        ha | hb | hc
      · exact Or.inr (Or.inl ⟨p, List.mem_cons_self .., ha⟩)
      · obtain ⟨p', hp', hcc⟩ := hb
        exact Or.inr (Or.inl ⟨p', List.mem_cons_of_mem _ hp', hcc⟩)
      · exact Or.inr (Or.inr hc)

theorem runs_matched_ne_nil {matched R0 Nf : List Char}
    {ps : List (List Char × List Char)} (hNf : Nf ≠ [])
    (hm : matched = R0 ++ (runsGlue ps ++ Nf)) : matched ≠ [] := by
  intro hc
  rw [hc] at hm
  have h1 := List.append_eq_nil.mp hm.symm
  have h2 := List.append_eq_nil.mp h1.2
  exact hNf h2.2

/-- The head of the glued part of a runs decomposition is never a
protected character. -/
theorem glue_head_bad {ps : List (List Char × List Char)} {Nf : List Char}
    (hNf : SepOk Nf) (hps : ∀ p ∈ ps, SepOk p.1) :
    ∃ b t', runsGlue ps ++ Nf = b :: t' ∧ goodSubChar b = false := by
  cases ps with
  | nil =>
    obtain ⟨b, t, hNfc⟩ : ∃ b t, Nf = b :: t := by
      cases Nf with
      | nil => exact absurd rfl hNf.1
      | cons b t => exact ⟨b, t, rfl⟩
    exact ⟨b, t, by rw [hNfc]; rfl,
      hNf.2 b (by rw [hNfc]; exact List.mem_cons_self ..)⟩
  | cons p ps' =>
    have hp := hps p (List.mem_cons_self ..)
    obtain ⟨b, t, hp1⟩ : ∃ b t, p.1 = b :: t := by
      cases hh : p.1 with
      | nil => exact absurd hh hp.1
      | cons b t => exact ⟨b, t, rfl⟩
    refine ⟨b, t ++ (p.2 ++ (runsGlue ps' ++ Nf)), ?_,
      hp.2 b (by rw [hp1]; exact List.mem_cons_self ..)⟩
    have hgl : runsGlue (p :: ps') = p.1 ++ (p.2 ++ runsGlue ps') := rfl
    rw [hgl, hp1]
    simp [List.append_assoc]

/-- Quote-delimited well-shapedness implies the generalized one. -/
theorem matcherRunsOk_of_ok {m : Matcher} (hm : MatcherOk m) : MatcherRunsOk m := by
  intro s matched repl rest h
  obtain ⟨hsound, A, M, q, P, q2, M2, Q, I, Q2, hmeq, hreq, hq, hq2, _, _, _, hM, _⟩ :=
    hm s matched repl rest h
  refine ⟨hsound, A, [(M ++ [q], P)], [q2], M2 ++ Q :: (I ++ (P ++ [Q2])), ?_, hreq, ?_, ?_⟩
  · rw [hmeq]
    simp [runsGlue, List.append_assoc]
  · refine ⟨by simp, ?_⟩
    intro c hc
    rw [List.mem_singleton] at hc
    subst hc
    exact quote_not_good hq2
  · intro p hp
    rw [List.mem_singleton] at hp
    subst hp
    refine ⟨⟨by simp, ?_⟩, ?_⟩
    · intro c hc
      rcases List.mem_append.mp hc with h1 | h1
      · rcases hM c h1 with hws | hpar
        · exact ws_not_good hws
        · rw [hpar]
          exact oparen_not_good
      · rw [List.mem_singleton] at h1
        subst h1
        exact quote_not_good hq
    · rw [hreq]
      exact containsSub_iff.mpr ⟨A ++ M2 ++ Q :: I, [Q2], by simp [List.append_assoc]⟩

/-- Prefix preservation: a protected pattern sitting at the head of the
input still sits at the head of the scanned output. -/
theorem scan_preserves_pfx (m : Matcher) (hm : MatcherRunsOk m) :
    ∀ (fuel : Nat) (pat s : List Char), (∀ c ∈ pat, goodSubChar c = true) →
      s.length ≤ fuel → startsWithCS pat s = true →
      startsWithCS pat (scanRepl m fuel s) = true := by
  intro fuel
  induction fuel with
  | zero =>
    intro pat s hg hlen hpre
    simpa [scanRepl] using hpre
  | succ f ih =>
    intro pat s hg hlen hpre
    cases s with
    | nil => simpa [scanRepl] using hpre
    | cons c cs =>
      cases hmatch : m (c :: cs) with
      | none =>
        have hout : scanRepl m (f + 1) (c :: cs) = c :: scanRepl m f cs := by
          rw [scanRepl, hmatch]
        rw [hout]
        cases pat with
        | nil => exact startsWithCS_iff.mpr ⟨_, rfl⟩
        | cons p pat' =>
          obtain ⟨t, ht⟩ := startsWithCS_iff.mp hpre
          rw [List.cons_append] at ht
          injection ht with hhead htail
          have hg' : ∀ x ∈ pat', goodSubChar x = true := fun x hx =>
            hg x (List.mem_cons_of_mem _ hx)
          have hlen' : cs.length ≤ f := by
            simp only [List.length_cons] at hlen
            omega
          have h2 := ih pat' cs hg' hlen' (startsWithCS_iff.mpr ⟨t, htail⟩)
          obtain ⟨u, hu⟩ := startsWithCS_iff.mp h2
          exact startsWithCS_iff.mpr ⟨u, by rw [hu, hhead, List.cons_append]⟩
      | some trip =>
        obtain ⟨matched, rr⟩ := trip
        obtain ⟨repl, rest⟩ := rr
        obtain ⟨hsound, R0, ps, Nf, T, hmeq, hreq, hNf, hps⟩ := hm _ _ _ _ hmatch
        have hmne : matched ≠ [] := runs_matched_ne_nil hNf.1 hmeq
        have hout : scanRepl m (f + 1) (c :: cs) = repl ++ scanRepl m f rest := by
          rw [scanRepl, hmatch]
          simp only
          rw [if_neg (by simpa [List.isEmpty_iff] using hmne)]
        rw [hout]
        obtain ⟨b, t', hbt, hb⟩ := glue_head_bad hNf (fun p hp => (hps p hp).1)
        have hpre2 : startsWithCS pat (R0 ++ b :: (t' ++ rest)) = true := by
          have hseq : (c :: cs : List Char) = R0 ++ b :: (t' ++ rest) := by
            rw [hsound, hmeq, List.append_assoc, hbt]
            rfl
          rw [← hseq]
          exact hpre
        have hpreA := prefix_reach hg hb hpre2
        have hpreR : startsWithCS pat repl = true := by
          rw [hreq]
          exact startsWithCS_append_of hpreA
        exact startsWithCS_append_of hpreR

/-- Containment preservation: a protected pattern occurring anywhere in
the input still occurs in the scanned output. -/
theorem scan_preserves (m : Matcher) (hm : MatcherRunsOk m) :
    ∀ (fuel : Nat) (pat s : List Char), (∀ c ∈ pat, goodSubChar c = true) →
      s.length ≤ fuel → containsSub pat s = true →
      containsSub pat (scanRepl m fuel s) = true := by
  intro fuel
  induction fuel with
  | zero =>
    intro pat s hg hlen hc
    simpa [scanRepl] using hc
  | succ f ih =>
    intro pat s hg hlen hc
    by_cases hne : pat = []
    · subst hne
      exact containsSub_nil_pat
    cases s with
    | nil => simpa [scanRepl] using hc
    | cons c cs =>
      have hc' := hc
      unfold containsSub at hc'
      rw [Bool.or_eq_true] at hc'
      rcases hc' with hhead | htail
      · exact containsSub_of_startsWith (scan_preserves_pfx m hm (f + 1) pat (c :: cs) hg hlen hhead)
      · cases hmatch : m (c :: cs) with
        | none =>
          have hout : scanRepl m (f + 1) (c :: cs) = c :: scanRepl m f cs := by
            rw [scanRepl, hmatch]
          rw [hout]
          have hlen' : cs.length ≤ f := by
            simp only [List.length_cons] at hlen
            omega
          exact containsSub_cons_of (ih pat cs hg hlen' htail)
        | some trip =>
          obtain ⟨matched, rr⟩ := trip
          obtain ⟨repl, rest⟩ := rr
          obtain ⟨hsound, R0, ps, Nf, T, hmeq, hreq, hNf, hps⟩ := hm _ _ _ _ hmatch
          have hmne : matched ≠ [] := runs_matched_ne_nil hNf.1 hmeq
          have hout : scanRepl m (f + 1) (c :: cs) = repl ++ scanRepl m f rest := by
            rw [scanRepl, hmatch]
            simp only
            rw [if_neg (by simpa [List.isEmpty_iff] using hmne)]
          rw [hout]
          have hlenrest : rest.length ≤ f := by
            have h1 : (c :: cs).length = matched.length + rest.length := by
              rw [hsound, List.length_append]
            simp only [List.length_cons] at h1
            have h2 : 1 ≤ matched.length := by
              cases hmm : matched with
              | nil => exact absurd hmm hmne
              | cons _ _ => simp
            simp only [List.length_cons] at hlen
            omega
          have hsplit1 : containsSub pat (R0 ++ (runsGlue ps ++ (Nf ++ rest))) = true := by
            have hseq : (c :: cs : List Char) = R0 ++ (runsGlue ps ++ (Nf ++ rest)) := by
              rw [hsound, hmeq]
              simp [List.append_assoc]
            rw [← hseq]
            exact hc
          rcases glue_occurs hg ps R0 Nf rest hNf (fun p hp => (hps p hp).1) hsplit1 with
            hR0 | hmid | hrest
          · apply containsSub_append_left
            rw [hreq]
            exact containsSub_append_left hR0
          · obtain ⟨p, hpmem, hpc⟩ := hmid
            apply containsSub_append_left
            exact containsSub_trans hpc (hps p hpmem).2
          · exact containsSub_append_right (ih pat rest hg hlenrest hrest)

/-- A scan with a matcher that never fires is the identity. -/
theorem scan_id_of_no_fire (m : Matcher) :
    ∀ (fuel : Nat) (s : List Char), matcherFires m s = false → scanRepl m fuel s = s := by
  intro fuel
  induction fuel with
  | zero => intro s _; rw [scanRepl]
  | succ f ih =>
    intro s h
    cases s with
    | nil => rw [scanRepl]
    | cons c cs =>
      rw [matcherFires] at h
      cases hm : m (c :: cs) with
      | some trip => rw [hm] at h; simp at h
      | none =>
        rw [Bool.or_eq_false_iff] at h
        rw [scanRepl, hm, ih cs h.2]

theorem runRule_id_of_no_fire {m : Matcher} {s : List Char}
    (h : matcherFires m s = false) : runRule m s = s :=
  scan_id_of_no_fire m s.length s h

theorem absPath_eq (p : List Char) : absPath p = p ∨ absPath p = '/' :: p := by
  unfold absPath
  split
  · exact Or.inl rfl
  · exact Or.inr rfl

theorem tryAttr_sound {attr : List Char} {la : List Char → Bool} {s : List Char} {am : AttrM}
    (h : tryAttr attr la s = some am) :
    s = (am.lit ++ am.q :: am.path ++ [am.q]) ++ am.rest ∧
      isQuote am.q = true ∧ ∀ c ∈ am.path, isQuote c = false := by
  unfold tryAttr at h
  cases hp : parseLitCI attr s with
  | none => rw [hp] at h; exact absurd h (by simp)
  | some pr =>
    obtain ⟨a, s1⟩ := pr
    rw [hp] at h
    dsimp only at h
    cases s1 with
    | nil => exact absurd h (by simp)
    | cons c s2 =>
      cases s2 with
      | nil => exact absurd h (by simp)
      | cons q s3 =>
        split at h
        case h_2 => exact absurd h (by simp)
        rename_i s1x q2x s3x heq
        injection heq with hc heq2
        injection heq2 with hq hs3
        subst hc
        subst hq
        subst hs3
        by_cases hq : isQuote q = true
        swap
        · rw [if_neg hq] at h
          exact absurd h (by simp)
        rw [if_pos hq] at h
        by_cases hla : la s3 = true
        · rw [if_pos hla] at h
          exact absurd h (by simp)
        rw [if_neg hla] at h
        cases hr : (takeRun nonQuote s3).2 with
        | nil =>
          rw [hr] at h
          exact absurd h (by simp)
        | cons q2 s5 =>
          rw [hr] at h
          dsimp only at h
          by_cases hemp : (takeRun nonQuote s3).1.isEmpty = true
          · rw [if_pos hemp] at h
            exact absurd h (by simp)
          rw [if_neg hemp] at h
          by_cases hq2 : q2 = q
          swap
          · rw [if_neg hq2] at h
            exact absurd h (by simp)
          rw [if_pos hq2] at h
          subst hq2
          injection h with ham
          subst ham
          dsimp only
          refine ⟨?_, hq, ?_⟩
          · have hs := parseLitCI_sound attr s a _ hp
            have hs3 := takeRun_sound nonQuote s3
            rw [hr] at hs3
            generalize hg : (takeRun nonQuote s3).1 = r1 at hs3 ⊢
            rw [hs, hs3]
            simp
          · intro x hx
            have hall := takeRun_all nonQuote s3 x hx
            unfold nonQuote at hall
            simpa using hall

/-- The attribute rules only rewrite quote-delimited attribute values,
keeping the value between the quotes intact or prefixing it. -/
theorem attrMatcher_ok (attr : List Char) (la guard : List Char → Bool) (pfx : List Char) :
    MatcherOk (attrMatcher attr la guard pfx) := by
  intro s matched repl rest h
  unfold attrMatcher at h
  cases ht : tryAttr attr la s with
  | none => rw [ht] at h; exact absurd h (by simp)
  | some am =>
    rw [ht] at h
    injection h with h
    rw [Prod.mk.injEq, Prod.mk.injEq] at h
    obtain ⟨h1, h2, h3⟩ := h
    obtain ⟨hs, hq, hP⟩ := tryAttr_sound ht
    subst h1
    subst h2
    subst h3
    refine ⟨hs, ?_⟩
    by_cases hg : guard am.path = true
    · refine ⟨am.lit, [], am.q, am.path, am.q, [], am.q, [], am.q, by simp, ?_, hq, hq, hq,
        hq, hP, by simp, by simp⟩
      unfold attrRepl
      rw [if_pos hg]
      simp
    · rcases absPath_eq am.path with ha | ha
      · refine ⟨am.lit, [], am.q, am.path, am.q, [], am.q, pfx, am.q, by simp, ?_, hq, hq, hq,
          hq, hP, by simp, by simp⟩
        unfold attrRepl
        rw [if_neg hg, ha]
        simp
      · refine ⟨am.lit, [], am.q, am.path, am.q, [], am.q, pfx ++ ['/'], am.q, by simp, ?_, hq,
          hq, hq, hq, hP, by simp, by simp⟩
        unfold attrRepl
        rw [if_neg hg, ha]
        simp

theorem tryIframeTail_sound {s tl : List Char} {q : Char} {path rest : List Char}
    (h : tryIframeTail s = some (tl, q, path, rest)) :
    s = (tl ++ q :: path ++ [q]) ++ rest ∧ isQuote q = true ∧
      ∀ c ∈ path, isQuote c = false := by
  unfold tryIframeTail at h
  cases s with
  | nil => exact absurd h (by simp)
  | cons w s1 =>
    dsimp only at h
    by_cases hw : isWsChar w = true
    swap
    · rw [if_neg hw] at h
      exact absurd h (by simp)
    rw [if_pos hw] at h
    cases hp : parseLitCI (String.toList "src") s1 with
    | none => rw [hp] at h; exact absurd h (by simp)
    | some pr =>
      obtain ⟨asrc, s2⟩ := pr
      rw [hp] at h
      dsimp only at h
      cases s2 with
      | nil => exact absurd h (by simp)
      | cons c s3 =>
        cases s3 with
        | nil => exact absurd h (by simp)
        | cons qc s4 =>
          split at h
          rotate_left
          · exact absurd h (by simp)
          rename_i s2x q2x s4x heq
          injection heq with hc heq2
          injection heq2 with hqc hs4
          subst hc
          subst hqc
          subst hs4
          by_cases hq : isQuote qc = true
          swap
          · rw [if_neg hq] at h
            exact absurd h (by simp)
          rw [if_pos hq] at h
          by_cases hla : laIframe s4 = true
          · rw [if_pos hla] at h
            exact absurd h (by simp)
          rw [if_neg hla] at h
          cases hr : (takeRun nonQuote s4).2 with
          | nil =>
            rw [hr] at h
            exact absurd h (by simp)
          | cons q2 s6 =>
            rw [hr] at h
            dsimp only at h
            by_cases hemp : (takeRun nonQuote s4).1.isEmpty = true
            · rw [if_pos hemp] at h
              exact absurd h (by simp)
            rw [if_neg hemp] at h
            by_cases hq2 : q2 = qc
            swap
            · rw [if_neg hq2] at h
              exact absurd h (by simp)
            rw [if_pos hq2] at h
            subst hq2
            injection h with h
            rw [Prod.mk.injEq, Prod.mk.injEq, Prod.mk.injEq] at h
            obtain ⟨h1, h2, h3, h4⟩ := h
            subst h1
            subst h2
            subst h3
            subst h4
            refine ⟨?_, hq, ?_⟩
            · have hs1 := parseLitCI_sound _ s1 asrc _ hp
              have hs4 := takeRun_sound nonQuote s4
              rw [hr] at hs4
              generalize hg : (takeRun nonQuote s4).1 = r1 at hs4 ⊢
              rw [hs1, hs4]
              simp
            · intro x hx
              have hall := takeRun_all nonQuote s4 x hx
              unfold nonQuote at hall
              simpa using hall

theorem splitsDesc_mem {l : List Char} {pr : List Char × List Char}
    (h : pr ∈ splitsDesc l) : pr.1 ++ pr.2 = l := by
  unfold splitsDesc at h
  rw [List.mem_reverse, List.mem_map] at h
  obtain ⟨j, hj, hpr⟩ := h
  rw [← hpr]
  exact List.take_append_drop j l

/-- The iframe rule only rewrites quote-delimited src values inside an
iframe tag, keeping the value between the quotes intact or prefixing
it. -/
theorem iframeMatcher_ok (pfx : List Char) : MatcherOk (iframeMatcher pfx) := by
  intro s matched repl rest h
  unfold iframeMatcher at h
  cases hp : parseLitCI (String.toList "<iframe") s with
  | none => rw [hp] at h; exact absurd h (by simp)
  | some pr0 =>
    obtain ⟨a0, s1⟩ := pr0
    rw [hp] at h
    obtain ⟨pr, hmem, hfs⟩ := List.exists_of_findSome?_eq_some h
    dsimp only at hfs
    cases ht : tryIframeTail (pr.2 ++ (takeRun (fun c => c != '>') s1).2) with
    | none => rw [ht] at hfs; exact absurd hfs (by simp)
    | some r4 =>
      obtain ⟨tl, rr⟩ := r4
      obtain ⟨q, rr2⟩ := rr
      obtain ⟨path, rst⟩ := rr2
      rw [ht] at hfs
      dsimp only at hfs
      injection hfs with hfs
      rw [Prod.mk.injEq, Prod.mk.injEq] at hfs
      obtain ⟨h1, h2, h3⟩ := hfs
      subst h1
      subst h2
      subst h3
      have hs := parseLitCI_sound _ s a0 _ hp
      have hsp := takeRun_sound (fun c => c != '>') s1
      have hpr12 := splitsDesc_mem hmem
      obtain ⟨hts, hq, hP⟩ := tryIframeTail_sound ht
      refine ⟨?_, ?_⟩
      · rw [hs, hsp, ← hpr12, List.append_assoc pr.1 pr.2, hts]
        simp [List.append_assoc]
      · by_cases hg : guardIframe path = true
        · rw [if_pos hg]
          refine ⟨a0 ++ pr.1 ++ tl, [], q, path, q, [], q, [], q, by simp, by simp, hq, hq,
            hq, hq, hP, by simp, by simp⟩
        · rcases absPath_eq path with ha | ha
          · rw [if_neg hg, ha]
            refine ⟨a0 ++ pr.1 ++ tl, [], q, path, q, [], q, pfx, q, by simp, by simp, hq, hq,
              hq, hq, hP, by simp, by simp⟩
          · rw [if_neg hg, ha]
            refine ⟨a0 ++ pr.1 ++ tl, [], q, path, q, [], q, pfx ++ ['/'], q, by simp, by simp,
              hq, hq, hq, hq, hP, by simp, by simp⟩

theorem isQuote_dq : isQuote dq = true := by decide

/-- One fetch-method alternative only rewrites quote-delimited first
arguments, keeping the argument between the quotes intact or prefixing
it. -/
theorem tryFetchMethod_ok (pfx mname : List Char) :
    MatcherOk (fun s => tryFetchMethod pfx mname s) := by
  intro s matched repl rest h
  have h : tryFetchMethod pfx mname s = some (matched, repl, rest) := h
  unfold tryFetchMethod at h
  cases hp : parseLitCI mname s with
  | none => rw [hp] at h; exact absurd h (by simp)
  | some pr =>
    obtain ⟨ma, s1⟩ := pr
    rw [hp] at h
    try dsimp only at h
    cases hw : (takeRun isWsChar s1).2 with
    | nil => rw [hw] at h; exact absurd h (by simp)
    | cons c0 s3 =>
      rw [hw] at h
      try dsimp only at h
      split at h
      rotate_left
      · exact absurd h (by simp)
      rename_i s3x heq
      injection heq with hc0 hs3
      subst hc0
      subst hs3
      cases s3 with
      | nil => exact absurd h (by simp)
      | cons q1 s4 =>
        try dsimp only at h
        by_cases hq1 : isQuote q1 = true
        swap
        · rw [if_neg hq1] at h
          exact absurd h (by simp)
        rw [if_pos hq1] at h
        cases hu : (takeRun nonQuote s4).2 with
        | nil => rw [hu] at h; exact absurd h (by simp)
        | cons q2 s6 =>
          rw [hu] at h
          try dsimp only at h
          by_cases hemp : (takeRun nonQuote s4).1.isEmpty = true
          · rw [if_pos hemp] at h
            exact absurd h (by simp)
          rw [if_neg hemp] at h
          by_cases hq2 : isQuote q2 = true
          swap
          · rw [if_neg hq2] at h
            exact absurd h (by simp)
          rw [if_pos hq2] at h
          injection h with h
          rw [Prod.mk.injEq, Prod.mk.injEq] at h
          obtain ⟨h1, h2, h3⟩ := h
          subst h1
          subst h2
          subst h3
          have hs := parseLitCI_sound _ s ma _ hp
          have hs1 := takeRun_sound isWsChar s1
          rw [hw] at hs1
          have hs4 := takeRun_sound nonQuote s4
          rw [hu] at hs4
          have hP : ∀ c ∈ (takeRun nonQuote s4).1, isQuote c = false := by
            intro x hx
            have hall := takeRun_all nonQuote s4 x hx
            unfold nonQuote at hall
            simpa using hall
          have hMw : ∀ c ∈ (takeRun isWsChar s1).1 ++ ['('], isWsChar c = true ∨ c = '(' := by
            intro x hx
            rcases List.mem_append.mp hx with hx1 | hx2
            · exact Or.inl (takeRun_all isWsChar s1 x hx1)
            · rw [List.mem_singleton] at hx2
              exact Or.inr hx2
          refine ⟨?_, ?_⟩
          · generalize hg : (takeRun nonQuote s4).1 = u1 at hs4 ⊢
            generalize hg2 : (takeRun isWsChar s1).1 = w1 at hs1 ⊢
            rw [hs, hs1, hs4]
            simp
          · by_cases hgf : guardFetch (takeRun nonQuote s4).1 = true
            · rw [if_pos hgf]
              refine ⟨ma, (takeRun isWsChar s1).1 ++ ['('], q1, (takeRun nonQuote s4).1, q2,
                (takeRun isWsChar s1).1 ++ ['('], q1, [], q2, by simp, by simp, hq1, hq2,
                hq1, hq2, hP, hMw, hMw⟩
            · rw [if_neg hgf]
              rcases absPath_eq (takeRun nonQuote s4).1 with ha | ha
              · rw [ha]
                refine ⟨ma, (takeRun isWsChar s1).1 ++ ['('], q1, (takeRun nonQuote s4).1, q2,
                  ['('], dq, pfx, dq, by simp, by simp, hq1, hq2, isQuote_dq, isQuote_dq, hP,
                  hMw, by simp⟩
              · rw [ha]
                refine ⟨ma, (takeRun isWsChar s1).1 ++ ['('], q1, (takeRun nonQuote s4).1, q2,
                  ['('], dq, pfx ++ ['/'], dq, by simp, by simp, hq1, hq2, isQuote_dq,
                  isQuote_dq, hP, hMw, by simp⟩

/-- The fetch rule is the alternation of the three method alternatives,
each of which is well-shaped. -/
theorem fetchMatcher_ok (pfx : List Char) : MatcherOk (fetchMatcher pfx) := by
  intro s matched repl rest h
  unfold fetchMatcher at h
  cases h1 : tryFetchMethod pfx (String.toList "fetch") s with
  | some r =>
    rw [h1] at h
    injection h with h
    subst h
    exact tryFetchMethod_ok pfx (String.toList "fetch") s matched repl rest h1
  | none =>
    rw [h1] at h
    cases h2 : tryFetchMethod pfx (String.toList "XMLHttpRequest") s with
    | some r =>
      rw [h2] at h
      injection h with h
      subst h
      exact tryFetchMethod_ok pfx (String.toList "XMLHttpRequest") s matched repl rest h2
    | none =>
      rw [h2] at h
      exact tryFetchMethod_ok pfx (String.toList "open") s matched repl rest h

/-! ## The asset rewriter (assetsService.js, rewriteAssetContent) -/

/-- Tenant prefix of the asset rewriter. -/
def assetPfx (siteName : List Char) : List Char :=
  String.toList "/vpn/" ++ siteName ++ String.toList "/neocore"

/-- The BASE_URL-style names of asset js rule 1, in alternation
order. -/
def baseUrlNames : List (List Char) :=
  [String.toList "BASE_URL", String.toList "baseURL", String.toList "baseUrl",
   String.toList "base_url"]

/-- Asset js rule 1: a BASE_URL-style name (matched case-insensitively
and captured as written), optional whitespace, a colon, optional
whitespace, a quote, the literal /api (case-insensitively, captured as
written) and a closing quote.  The replacement keeps the name, then a
colon, one space and double quotes, prefixing the captured path. -/
def tryBaseUrl (pfx : List Char) (s : List Char) :
    Option (List Char × List Char × List Char) :=
  match baseUrlNames.findSome? (fun n => parseLitCI n s) with
  | none => none
  | some (cap1, s1) =>
    let w1 := takeRun isWsChar s1
    match w1.2 with
    | ':' :: s2 =>
      let w2 := takeRun isWsChar s2
      match w2.2 with
      | q :: s3 =>
        if isQuote q then
          match parseLitCI (String.toList "/api") s3 with
          | none => none
          | some (cap2, s4) =>
            match s4 with
            | q2 :: s5 =>
              if isQuote q2 then
                some
                  ( cap1 ++ w1.1 ++ ':' :: w2.1 ++ q :: cap2 ++ [q2]
                  , cap1 ++ ':' :: ' ' :: dq :: (pfx ++ cap2) ++ [dq]
                  , s5 )
              else none
            | [] => none
        else none
      | [] => none
    | _ => none

/-- Asset js rule 2: the empty-string concat chain around the literal
/api; all three groups are fixed literals and the replacement reinserts
them with the tenant prefix before /api. -/
def tryConcatApi (pfx : List Char) (s : List Char) :
    Option (List Char × List Char × List Char) :=
  match parseLitCS (String.toList "\"\".concat(\"") s with
  | none => none
  | some s1 =>
    match parseLitCS (String.toList "/api") s1 with
    | none => none
    | some s2 =>
      match parseLitCS (String.toList "\").concat(") s2 with
      | none => none
      | some s3 =>
        some
          ( String.toList "\"\".concat(\"" ++ String.toList "/api" ++
              String.toList "\").concat("
          , String.toList "\"\".concat(\"" ++ pfx ++ String.toList "/api" ++
              String.toList "\").concat("
          , s3 )

/-- The method names of asset js rules 3 and 6, in alternation order
(these rules are case-sensitive). -/
def fetchNamesCS : List (List Char) :=
  [String.toList "fetch", String.toList "axios", String.toList "XMLHttpRequest"]

/-- Asset js rule 3: a fetch-style call of a quoted concat of /api: the
method name, an opening parenthesis, a quote, the literal .concat(, a
quote, the literal /api, then a quote, a comma, optional whitespace and
a quote.  The replacement rebuilds the head with double quotes and the
tenant prefix and keeps the tail group as matched. -/
def tryFetchConcat (pfx : List Char) (s : List Char) :
    Option (List Char × List Char × List Char) :=
  match fetchNamesCS.findSome? (fun n => (parseLitCS n s).map (fun r => (n, r))) with
  | none => none
  | some (meth, s1) =>
    match s1 with
    | '(' :: q1 :: s2 =>
      if isQuote q1 then
        match parseLitCS (String.toList ".concat(") s2 with
        | none => none
        | some s3 =>
          match s3 with
          | q2 :: s4 =>
            if isQuote q2 then
              match parseLitCS (String.toList "/api") s4 with
              | none => none
              | some s5 =>
                match s5 with
                | q3 :: s6 =>
                  if isQuote q3 then
                    match s6 with
                    | ',' :: s7 =>
                      let w := takeRun isWsChar s7
                      match w.2 with
                      | q4 :: s8 =>
                        if isQuote q4 then
                          some
                            ( meth ++ '(' :: q1 :: String.toList ".concat(" ++
                                q2 :: String.toList "/api" ++ q3 :: ',' :: w.1 ++ [q4]
                            , meth ++ String.toList "(\"\".concat(\"" ++ pfx ++
                                String.toList "/api" ++ '\"' :: q3 :: ',' :: w.1 ++ [q4]
                            , s8 )
                        else none
                      | [] => none
                    | _ => none
                  else none
                | [] => none
            else none
          | [] => none
      else none
    | _ => none

/-- Asset js rules 4 and 5: a quoted string beginning with a fixed
literal prefix (/api/ or /static/) and continuing with a nonempty
non-quote run up to the closing quote, re-quoted with double quotes and
the tenant prefix. -/
def tryQuotedPath (pfx lit : List Char) (s : List Char) :
    Option (List Char × List Char × List Char) :=
  match s with
  | q :: s1 =>
    if isQuote q then
      match parseLitCS lit s1 with
      | none => none
      | some s2 =>
        let r := takeRun nonQuote s2
        if r.1.isEmpty then none
        else
          match r.2 with
          | q2 :: s3 =>
            if isQuote q2 then
              some
                ( q :: (lit ++ r.1) ++ [q2]
                , dq :: (pfx ++ (lit ++ r.1)) ++ [dq]
                , s3 )
            else none
          | [] => none
    else none
  | [] => none

/-- Asset js rule 6: a fetch-style call of a quoted absolute path; only
paths under /api/ or /static/ are prefixed (re-quoted with double
quotes and closed with a parenthesis), others are left as matched. -/
def tryFetchDirect (pfx : List Char) (s : List Char) :
    Option (List Char × List Char × List Char) :=
  match fetchNamesCS.findSome? (fun n => (parseLitCS n s).map (fun r => (n, r))) with
  | none => none
  | some (meth, s1) =>
    match s1 with
    | '(' :: q :: '/' :: s2 =>
      if isQuote q then
        let r := takeRun nonQuote s2
        if r.1.isEmpty then none
        else
          match r.2 with
          | q2 :: s3 =>
            if isQuote q2 then
              some
                ( meth ++ '(' :: q :: '/' :: r.1 ++ [q2]
                , if startsWithCS (String.toList "/api/") ('/' :: r.1)
                      || startsWithCS (String.toList "/static/") ('/' :: r.1) then
                    meth ++ '(' :: dq :: (pfx ++ '/' :: r.1) ++ dq :: [')']
                  else meth ++ '(' :: q :: '/' :: r.1 ++ [q2]
                , s3 )
            else none
          | [] => none
      else none
    | _ => none

/-- Asset js rule 7: a url: config entry with a quoted absolute path;
only /api/ or /static/ paths are prefixed, re-quoted with double quotes
after a normalized single space. -/
def tryUrlConfig (pfx : List Char) (s : List Char) :
    Option (List Char × List Char × List Char) :=
  match parseLitCS (String.toList "url:") s with
  | none => none
  | some s1 =>
    let w := takeRun isWsChar s1
    match w.2 with
    | q :: '/' :: s2 =>
      if isQuote q then
        let r := takeRun nonQuote s2
        if r.1.isEmpty then none
        else
          match r.2 with
          | q2 :: s3 =>
            if isQuote q2 then
              some
                ( String.toList "url:" ++ w.1 ++ q :: '/' :: r.1 ++ [q2]
                , if startsWithCS (String.toList "/api/") ('/' :: r.1)
                      || startsWithCS (String.toList "/static/") ('/' :: r.1) then
                    String.toList "url: " ++ dq :: (pfx ++ '/' :: r.1) ++ [dq]
                  else String.toList "url:" ++ w.1 ++ q :: '/' :: r.1 ++ [q2]
                , s3 )
            else none
          | [] => none
      else none
    | _ => none

/-- The image and font extensions of asset js rule 8, in alternation
order. -/
def assetExts : List (List Char) :=
  [String.toList "png", String.toList "svg", String.toList "ico",
   String.toList "jpg", String.toList "jpeg", String.toList "webp",
   String.toList "gif", String.toList "woff", String.toList "woff2",
   String.toList "ttf", String.toList "eot", String.toList "otf"]

/-- The filename class of asset js rule 8: everything but double quote,
question mark, hash and slash. -/
def fnameClass (c : Char) : Bool := !(c = '\"' || c = '?' || c = '#' || c = '/')

/-- The optional query group of asset js rule 8 followed by a closing
quote: a question mark then a non-double-quote run, backtracking from
the longest run, with the group dropped when no split closes.  Returns
the matched query (possibly empty), the closing quote and the rest. -/
def tryAssetQuery (s : List Char) : Option (List Char × Char × List Char) :=
  match s with
  | '?' :: s1 =>
    let r := takeRun (fun c => c != '\"') s1
    match (splitsDesc r.1).findSome? (fun pr =>
        match pr.2 ++ r.2 with
        | q2 :: s2 => if isQuote q2 then some ('?' :: pr.1, q2, s2) else none
        | [] => none) with
    | some res => some res
    | none =>
      match s with
      | q2 :: s2 => if isQuote q2 then some (([] : List Char), q2, s2) else none
      | [] => none
  | q2 :: s2 => if isQuote q2 then some (([] : List Char), q2, s2) else none
  | [] => none

/-- Asset js rule 8: a quoted root asset path - slash, filename, dot,
extension, optional query - re-quoted with double quotes and the tenant
prefix unless the path already starts with /vpn/.  The filename run
backtracks from the longest split, the extensions are tried in
alternation order. -/
def tryRootAsset (pfx : List Char) (s : List Char) :
    Option (List Char × List Char × List Char) :=
  match s with
  | q :: '/' :: s1 =>
    if isQuote q then
      let r := takeRun fnameClass s1
      (splitsDesc r.1).findSome? (fun pr =>
        match pr.2 ++ r.2 with
        | '.' :: s2 =>
          if pr.1.isEmpty then none
          else
            assetExts.findSome? (fun ext =>
              match parseLitCS ext s2 with
              | none => none
              | some s3 =>
                match tryAssetQuery s3 with
                | none => none
                | some (qq, q2, s4) =>
                  some
                    ( q :: ('/' :: (pr.1 ++ '.' :: ext) ++ qq) ++ [q2]
                    , if startsWithCS (String.toList "/vpn/")
                          ('/' :: (pr.1 ++ '.' :: ext)) then
                        q :: ('/' :: (pr.1 ++ '.' :: ext) ++ qq) ++ [q2]
                      else dq :: (pfx ++ ('/' :: (pr.1 ++ '.' :: ext) ++ qq)) ++ [dq]
                    , s4 ))
        | _ => none)
    else none
  | _ => none

/-- The path class of the css url rule: everything but quotes and the
closing parenthesis. -/
def cssPathClass (c : Char) : Bool := !(isQuote c || c = ')')

/-- The css url rule: the literal url(, an optional quote, a captured
absolute path (slash then a nonempty run), an optional quote and the
closing parenthesis; paths not already under /vpn/ and not starting
with http are prefixed and double quoted. -/
def tryCssUrl (pfx : List Char) (s : List Char) :
    Option (List Char × List Char × List Char) :=
  match parseLitCS (String.toList "url(") s with
  | none => none
  | some s1 =>
    match (match s1 with
           | c :: t => if isQuote c then some ([c], t) else some (([] : List Char), s1)
           | [] => some (([] : List Char), s1)) with
    | none => none
    | some (qo, s2) =>
      match s2 with
      | '/' :: s3 =>
        let r := takeRun cssPathClass s3
        if r.1.isEmpty then none
        else
          match (match r.2 with
                 | ')' :: s4 => some (([] : List Char), s4)
                 | c :: ')' :: s4 => if isQuote c then some ([c], s4) else none
                 | _ => none) with
          | none => none
          | some (qc, s4) =>
            some
              ( String.toList "url(" ++ qo ++ '/' :: r.1 ++ qc ++ [')']
              , if startsWithCS (String.toList "/vpn/") ('/' :: r.1)
                    || startsWithCS (String.toList "http") ('/' :: r.1) then
                  String.toList "url(" ++ qo ++ '/' :: r.1 ++ qc ++ [')']
                else String.toList "url(\"" ++ pfx ++ '/' :: r.1 ++ String.toList "\")"
              , s4 )
      | _ => none

/-- Translation of rewriteAssetContent (assetsService.js lines 96 to
160): the eight js substitutions in source order for js assets, the css
url substitution for css assets, anything else untouched. -/
def rewriteAssetContent (content siteName fileType : List Char) : List Char :=
  if fileType = String.toList "js" then
    runRule (fun s => tryRootAsset (assetPfx siteName) s)
      (runRule (fun s => tryUrlConfig (assetPfx siteName) s)
        (runRule (fun s => tryFetchDirect (assetPfx siteName) s)
          (runRule (fun s => tryQuotedPath (assetPfx siteName) (String.toList "/static/") s)
            (runRule (fun s => tryQuotedPath (assetPfx siteName) (String.toList "/api/") s)
              (runRule (fun s => tryFetchConcat (assetPfx siteName) s)
                (runRule (fun s => tryConcatApi (assetPfx siteName) s)
                  (runRule (fun s => tryBaseUrl (assetPfx siteName) s) content)))))))
  else if fileType = String.toList "css" then
    runRule (fun s => tryCssUrl (assetPfx siteName) s) content
  else content

theorem ws_run_bad (x : List Char) :
    ∀ c ∈ (takeRun isWsChar x).1, goodSubChar c = false :=
  fun c hc => ws_not_good (takeRun_all isWsChar x c hc)

theorem sepOk_snoc {N : List Char} {b : Char}
    (hN : ∀ c ∈ N, goodSubChar c = false) (hb : goodSubChar b = false) :
    SepOk (N ++ [b]) := by
  refine ⟨by simp, ?_⟩
  intro c hc
  rcases List.mem_append.mp hc with h | h
  · exact hN c h
  · rw [List.mem_singleton] at h
    subst h
    exact hb

theorem sepOk_one {b : Char} (hb : goodSubChar b = false) : SepOk [b] := by
  refine ⟨by simp, ?_⟩
  intro c hc
  rw [List.mem_singleton] at hc
  subst hc
  exact hb

/-- Asset js rules 4 and 5 are well-shaped: the quoted payload is kept
contiguous after the inserted prefix. -/
theorem tryQuotedPath_ok (pfx lit : List Char) :
    MatcherRunsOk (fun s => tryQuotedPath pfx lit s) := by
  intro s matched repl rest h
  have h : tryQuotedPath pfx lit s = some (matched, repl, rest) := h
  unfold tryQuotedPath at h
  cases s with
  | nil => exact absurd h (by simp)
  | cons q s1 =>
    dsimp only at h
    by_cases hq : isQuote q = true
    swap
    · rw [if_neg hq] at h
      exact absurd h (by simp)
    rw [if_pos hq] at h
    cases hp : parseLitCS lit s1 with
    | none => rw [hp] at h; exact absurd h (by simp)
    | some s2 =>
      rw [hp] at h
      dsimp only at h
      by_cases hemp : (takeRun nonQuote s2).1.isEmpty = true
      · rw [if_pos hemp] at h
        exact absurd h (by simp)
      rw [if_neg hemp] at h
      cases hr : (takeRun nonQuote s2).2 with
      | nil => rw [hr] at h; exact absurd h (by simp)
      | cons q2 s3 =>
        rw [hr] at h
        dsimp only at h
        by_cases hq2 : isQuote q2 = true
        swap
        · rw [if_neg hq2] at h
          exact absurd h (by simp)
        rw [if_pos hq2] at h
        injection h with h
        rw [Prod.mk.injEq, Prod.mk.injEq] at h
        obtain ⟨h1, h2, h3⟩ := h
        subst h1
        subst h2
        subst h3
        constructor
        · have hs1 : s1 = lit ++ s2 := parseLitCS_sound hp
          have hs2 := takeRun_sound nonQuote s2
          rw [hr] at hs2
          generalize hgr : (takeRun nonQuote s2).1 = r1 at hs2 ⊢
          rw [hs1, hs2]
          simp
        · refine ⟨[], [([q], lit ++ (takeRun nonQuote s2).1)], [q2], _, ?_, rfl,
            sepOk_one (quote_not_good hq2), ?_⟩
          · simp [runsGlue]
          · intro p hp2
            rw [List.mem_singleton] at hp2
            subst hp2
            refine ⟨sepOk_one (quote_not_good hq), ?_⟩
            exact containsSub_iff.mpr ⟨[dq] ++ pfx, [dq], by simp⟩

/-- Asset js rule 2 is well-shaped: both literal runs and the /api
payload reappear contiguously in the replacement. -/
theorem tryConcatApi_ok (pfx : List Char) :
    MatcherRunsOk (fun s => tryConcatApi pfx s) := by
  intro s matched repl rest h
  have h : tryConcatApi pfx s = some (matched, repl, rest) := h
  unfold tryConcatApi at h
  cases h1 : parseLitCS (String.toList "\"\".concat(\"") s with
  | none => rw [h1] at h; exact absurd h (by simp)
  | some s1 =>
    rw [h1] at h
    dsimp only at h
    cases h2 : parseLitCS (String.toList "/api") s1 with
    | none => rw [h2] at h; exact absurd h (by simp)
    | some s2 =>
      rw [h2] at h
      dsimp only at h
      cases h3 : parseLitCS (String.toList "\").concat(") s2 with
      | none => rw [h3] at h; exact absurd h (by simp)
      | some s3 =>
        rw [h3] at h
        dsimp only at h
        injection h with h
        rw [Prod.mk.injEq, Prod.mk.injEq] at h
        obtain ⟨hm1, hm2, hm3⟩ := h
        subst hm1
        subst hm2
        subst hm3
        constructor
        · rw [parseLitCS_sound h1, parseLitCS_sound h2, parseLitCS_sound h3]
          simp
        · refine ⟨[], [(String.toList "\"\"", String.toList ".concat"),
            (String.toList "(\"", String.toList "/api"),
            (String.toList "\")", String.toList ".concat")], ['('], _, by decide, rfl,
            by decide, ?_⟩
          intro p hp2
          fin_cases hp2
          · exact ⟨by decide, containsSub_append_left (containsSub_append_left
              (containsSub_append_left (by decide)))⟩
          · exact ⟨by decide, containsSub_append_left (containsSub_append_right (by decide))⟩
          · exact ⟨by decide, containsSub_append_right (by decide)⟩

/-- Asset js rule 7 is well-shaped: the url: head is kept and the path
payload stays contiguous. -/
theorem tryUrlConfig_ok (pfx : List Char) :
    MatcherRunsOk (fun s => tryUrlConfig pfx s) := by
  intro s matched repl rest h
  have h : tryUrlConfig pfx s = some (matched, repl, rest) := h
  unfold tryUrlConfig at h
  cases hp : parseLitCS (String.toList "url:") s with
  | none => rw [hp] at h; exact absurd h (by simp)
  | some s1 =>
    rw [hp] at h
    dsimp only at h
    split at h
    rotate_left
    · exact absurd h (by simp)
    rename_i ax q s2 heq
    by_cases hq : isQuote q = true
    swap
    · rw [if_neg hq] at h
      exact absurd h (by simp)
    rw [if_pos hq] at h
    by_cases hemp : (takeRun nonQuote s2).1.isEmpty = true
    · rw [if_pos hemp] at h
      exact absurd h (by simp)
    rw [if_neg hemp] at h
    cases hr : (takeRun nonQuote s2).2 with
    | nil => rw [hr] at h; exact absurd h (by simp)
    | cons q2 s3 =>
      rw [hr] at h
      dsimp only at h
      by_cases hq2 : isQuote q2 = true
      swap
      · rw [if_neg hq2] at h
        exact absurd h (by simp)
      rw [if_pos hq2] at h
      injection h with h
      rw [Prod.mk.injEq, Prod.mk.injEq] at h
      obtain ⟨h1, h2, h3⟩ := h
      subst h1
      subst h2
      subst h3
      constructor
      · have hs1 : s = String.toList "url:" ++ s1 := parseLitCS_sound hp
        have hw := takeRun_sound isWsChar s1
        rw [heq] at hw
        have hr2 := takeRun_sound nonQuote s2
        rw [hr] at hr2
        generalize hgw : (takeRun isWsChar s1).1 = w1 at hw ⊢
        generalize hgr : (takeRun nonQuote s2).1 = r1 at hr2 ⊢
        rw [hs1, hw, hr2]
        simp
      · have hsep : SepOk ((takeRun isWsChar s1).1 ++ [q]) :=
          sepOk_snoc (ws_run_bad s1) (quote_not_good hq)
        by_cases hg : (startsWithCS (String.toList "/api/") ('/' :: (takeRun nonQuote s2).1)
            || startsWithCS (String.toList "/static/")
              ('/' :: (takeRun nonQuote s2).1)) = true
        · rw [if_pos hg]
          refine ⟨String.toList "url:",
            [((takeRun isWsChar s1).1 ++ [q], '/' :: (takeRun nonQuote s2).1)], [q2],
            ' ' :: dq :: (pfx ++ ('/' :: (takeRun nonQuote s2).1 ++ [dq])), ?_, ?_,
            sepOk_one (quote_not_good hq2), ?_⟩
          · simp [runsGlue, List.append_assoc]
          · simp [List.append_assoc]
          · intro p hp2
            rw [List.mem_singleton] at hp2
            subst hp2
            refine ⟨hsep, ?_⟩
            exact containsSub_iff.mpr ⟨String.toList "url: " ++ [dq] ++ pfx, [dq],
              by simp [List.append_assoc]⟩
        · rw [if_neg hg]
          refine ⟨String.toList "url:",
            [((takeRun isWsChar s1).1 ++ [q], '/' :: (takeRun nonQuote s2).1)], [q2],
            (takeRun isWsChar s1).1 ++ (q :: ('/' :: (takeRun nonQuote s2).1 ++ [q2])), ?_, ?_,
            sepOk_one (quote_not_good hq2), ?_⟩
          · simp [runsGlue, List.append_assoc]
          · simp [List.append_assoc]
          · intro p hp2
            rw [List.mem_singleton] at hp2
            subst hp2
            refine ⟨hsep, ?_⟩
            exact containsSub_iff.mpr ⟨String.toList "url:" ++ (takeRun isWsChar s1).1 ++ [q],
              [q2], by simp [List.append_assoc]⟩

/-- Asset js rule 6 is well-shaped: the method name is kept as head and
the path payload stays contiguous. -/
theorem tryFetchDirect_ok (pfx : List Char) :
    MatcherRunsOk (fun s => tryFetchDirect pfx s) := by
  intro s matched repl rest h
  have h : tryFetchDirect pfx s = some (matched, repl, rest) := h
  unfold tryFetchDirect at h
  cases hf : fetchNamesCS.findSome? (fun n => (parseLitCS n s).map (fun r => (n, r))) with
  | none => rw [hf] at h; exact absurd h (by simp)
  | some pr =>
    obtain ⟨meth, s1⟩ := pr
    rw [hf] at h
    dsimp only at h
    obtain ⟨n, hnmem, hnf⟩ := List.exists_of_findSome?_eq_some hf
    obtain ⟨r0, hr0, hnr⟩ := Option.map_eq_some'.mp hnf
    rw [Prod.mk.injEq] at hnr
    rw [hnr.1, hnr.2] at hr0
    split at h
    rotate_left
    · exact absurd h (by simp)
    rename_i q s2
    by_cases hq : isQuote q = true
    swap
    · rw [if_neg hq] at h
      exact absurd h (by simp)
    rw [if_pos hq] at h
    by_cases hemp : (takeRun nonQuote s2).1.isEmpty = true
    · rw [if_pos hemp] at h
      exact absurd h (by simp)
    rw [if_neg hemp] at h
    cases hr : (takeRun nonQuote s2).2 with
    | nil => rw [hr] at h; exact absurd h (by simp)
    | cons q2 s3 =>
      rw [hr] at h
      dsimp only at h
      by_cases hq2 : isQuote q2 = true
      swap
      · rw [if_neg hq2] at h
        exact absurd h (by simp)
      rw [if_pos hq2] at h
      injection h with h
      rw [Prod.mk.injEq, Prod.mk.injEq] at h
      obtain ⟨h1, h2, h3⟩ := h
      subst h1
      subst h2
      subst h3
      constructor
      · have hs1 : s = meth ++ ('(' :: q :: '/' :: s2) := parseLitCS_sound hr0
        have hr2 := takeRun_sound nonQuote s2
        rw [hr] at hr2
        generalize hgr : (takeRun nonQuote s2).1 = r1 at hr2 ⊢
        rw [hs1, hr2]
        simp
      · have hsep : SepOk ['(', q] := by
          refine ⟨by simp, ?_⟩
          intro c hc
          rcases List.mem_cons.mp hc with h | h
          · subst h
            exact oparen_not_good
          · rw [List.mem_singleton] at h
            subst h
            exact quote_not_good hq
        by_cases hg : (startsWithCS (String.toList "/api/") ('/' :: (takeRun nonQuote s2).1)
            || startsWithCS (String.toList "/static/")
              ('/' :: (takeRun nonQuote s2).1)) = true
        · rw [if_pos hg]
          refine ⟨meth, [(['(', q], '/' :: (takeRun nonQuote s2).1)], [q2],
            '(' :: dq :: (pfx ++ ('/' :: (takeRun nonQuote s2).1 ++ dq :: [')'])), ?_, ?_,
            sepOk_one (quote_not_good hq2), ?_⟩
          · simp [runsGlue, List.append_assoc]
          · simp [List.append_assoc]
          · intro p hp2
            rw [List.mem_singleton] at hp2
            subst hp2
            refine ⟨hsep, ?_⟩
            exact containsSub_iff.mpr ⟨meth ++ ['(', dq] ++ pfx, dq :: [')'],
              by simp [List.append_assoc]⟩
        · rw [if_neg hg]
          refine ⟨meth, [(['(', q], '/' :: (takeRun nonQuote s2).1)], [q2],
            '(' :: q :: ('/' :: (takeRun nonQuote s2).1 ++ [q2]), ?_, ?_,
            sepOk_one (quote_not_good hq2), ?_⟩
          · simp [runsGlue, List.append_assoc]
          · simp [List.append_assoc]
          · intro p hp2
            rw [List.mem_singleton] at hp2
            subst hp2
            refine ⟨hsep, ?_⟩
            exact containsSub_iff.mpr ⟨meth ++ ['(', q], [q2], by simp [List.append_assoc]⟩

/-- Asset js rule 1 is well-shaped: the captured name (and the colon)
survive at the head of the replacement and the captured path stays
contiguous. -/
theorem tryBaseUrl_ok (pfx : List Char) :
    MatcherRunsOk (fun s => tryBaseUrl pfx s) := by
  intro s matched repl rest h
  have h : tryBaseUrl pfx s = some (matched, repl, rest) := h
  unfold tryBaseUrl at h
  cases hf : baseUrlNames.findSome? (fun n => parseLitCI n s) with
  | none => rw [hf] at h; exact absurd h (by simp)
  | some pr =>
    obtain ⟨cap1, s1⟩ := pr
    rw [hf] at h
    dsimp only at h
    obtain ⟨n, hnmem, hnf⟩ := List.exists_of_findSome?_eq_some hf
    split at h
    rotate_left
    · exact absurd h (by simp)
    rename_i ax s2 heq
    cases hw2 : (takeRun isWsChar s2).2 with
    | nil => rw [hw2] at h; exact absurd h (by simp)
    | cons q s3 =>
      rw [hw2] at h
      dsimp only at h
      by_cases hq : isQuote q = true
      swap
      · rw [if_neg hq] at h
        exact absurd h (by simp)
      rw [if_pos hq] at h
      cases ha : parseLitCI (String.toList "/api") s3 with
      | none => rw [ha] at h; exact absurd h (by simp)
      | some pr2 =>
        obtain ⟨cap2, s4⟩ := pr2
        rw [ha] at h
        dsimp only at h
        cases s4 with
        | nil => exact absurd h (by simp)
        | cons q2 s5 =>
          dsimp only at h
          by_cases hq2 : isQuote q2 = true
          swap
          · rw [if_neg hq2] at h
            exact absurd h (by simp)
          rw [if_pos hq2] at h
          injection h with h
          rw [Prod.mk.injEq, Prod.mk.injEq] at h
          obtain ⟨h1, h2, h3⟩ := h
          subst h1
          subst h2
          subst h3
          constructor
          · have hs1 : s = cap1 ++ s1 := parseLitCI_sound n s cap1 s1 hnf
            have hw := takeRun_sound isWsChar s1
            rw [heq] at hw
            have hw2s := takeRun_sound isWsChar s2
            rw [hw2] at hw2s
            have ha2 : s3 = cap2 ++ q2 :: s5 := parseLitCI_sound _ s3 cap2 _ ha
            generalize hg1 : (takeRun isWsChar s1).1 = w11 at hw ⊢
            generalize hg2 : (takeRun isWsChar s2).1 = w21 at hw2s ⊢
            rw [hs1, hw, hw2s, ha2]
            simp
          · have hcap2 : containsSub cap2
                (cap1 ++ ':' :: ' ' :: dq :: (pfx ++ cap2) ++ [dq]) = true :=
              containsSub_iff.mpr ⟨cap1 ++ [':', ' ', dq] ++ pfx, [dq],
                by simp [List.append_assoc]⟩
            by_cases hw11 : (takeRun isWsChar s1).1 = []
            · refine ⟨cap1 ++ [':'], [((takeRun isWsChar s2).1 ++ [q], cap2)], [q2],
                ' ' :: dq :: (pfx ++ (cap2 ++ [dq])), ?_, ?_,
                sepOk_one (quote_not_good hq2), ?_⟩
              · rw [hw11]
                simp [runsGlue, List.append_assoc]
              · simp [List.append_assoc]
              · intro p hp2
                rw [List.mem_singleton] at hp2
                subst hp2
                exact ⟨sepOk_snoc (ws_run_bad s2) (quote_not_good hq), hcap2⟩
            · refine ⟨cap1, [((takeRun isWsChar s1).1, [':']),
                ((takeRun isWsChar s2).1 ++ [q], cap2)], [q2],
                ':' :: ' ' :: dq :: (pfx ++ (cap2 ++ [dq])), ?_, ?_,
                sepOk_one (quote_not_good hq2), ?_⟩
              · simp [runsGlue, List.append_assoc]
              · simp [List.append_assoc]
              · intro p hp2
                rcases List.mem_cons.mp hp2 with hp2 | hp2
                · subst hp2
                  refine ⟨⟨hw11, ws_run_bad s1⟩, ?_⟩
                  exact containsSub_iff.mpr ⟨cap1, ' ' :: dq :: (pfx ++ cap2) ++ [dq],
                    by simp [List.append_assoc]⟩
                · rw [List.mem_singleton] at hp2
                  subst hp2
                  exact ⟨sepOk_snoc (ws_run_bad s2) (quote_not_good hq), hcap2⟩

/-- Asset js rule 3 is well-shaped: the method name survives at the
head and the concat literal, the /api path and the comma all stay
contiguous in the replacement. -/
theorem tryFetchConcat_ok (pfx : List Char) :
    MatcherRunsOk (fun s => tryFetchConcat pfx s) := by
  intro s matched repl rest h
  have h : tryFetchConcat pfx s = some (matched, repl, rest) := h
  unfold tryFetchConcat at h
  cases hf : fetchNamesCS.findSome? (fun n => (parseLitCS n s).map (fun r => (n, r))) with
  | none => rw [hf] at h; exact absurd h (by simp)
  | some pr =>
    obtain ⟨meth, s1⟩ := pr
    rw [hf] at h
    dsimp only at h
    obtain ⟨n, hnmem, hnf⟩ := List.exists_of_findSome?_eq_some hf
    obtain ⟨r0, hr0, hnr⟩ := Option.map_eq_some'.mp hnf
    rw [Prod.mk.injEq] at hnr
    rw [hnr.1, hnr.2] at hr0
    split at h
    rotate_left
    · exact absurd h (by simp)
    rename_i q1 s2
    by_cases hq1 : isQuote q1 = true
    swap
    · rw [if_neg hq1] at h
      exact absurd h (by simp)
    rw [if_pos hq1] at h
    cases hc : parseLitCS (String.toList ".concat(") s2 with
    | none => rw [hc] at h; exact absurd h (by simp)
    | some s3 =>
      rw [hc] at h
      dsimp only at h
      cases s3 with
      | nil => exact absurd h (by simp)
      | cons q2 s4 =>
        dsimp only at h
        by_cases hq2 : isQuote q2 = true
        swap
        · rw [if_neg hq2] at h
          exact absurd h (by simp)
        rw [if_pos hq2] at h
        cases ha : parseLitCS (String.toList "/api") s4 with
        | none => rw [ha] at h; exact absurd h (by simp)
        | some s5 =>
          rw [ha] at h
          dsimp only at h
          cases s5 with
          | nil => exact absurd h (by simp)
          | cons q3 s6 =>
            dsimp only at h
            by_cases hq3 : isQuote q3 = true
            swap
            · rw [if_neg hq3] at h
              exact absurd h (by simp)
            rw [if_pos hq3] at h
            split at h
            rotate_left
            · exact absurd h (by simp)
            rename_i s7
            cases hw : (takeRun isWsChar s7).2 with
            | nil => rw [hw] at h; exact absurd h (by simp)
            | cons q4 s8 =>
              rw [hw] at h
              dsimp only at h
              by_cases hq4 : isQuote q4 = true
              swap
              · rw [if_neg hq4] at h
                exact absurd h (by simp)
              rw [if_pos hq4] at h
              injection h with h
              rw [Prod.mk.injEq, Prod.mk.injEq] at h
              obtain ⟨h1, h2, h3⟩ := h
              subst h1
              subst h2
              subst h3
              constructor
              · have hs1 : s = meth ++ ('(' :: q1 :: s2) := parseLitCS_sound hr0
                have hs2 : s2 = String.toList ".concat(" ++ (q2 :: s4) :=
                  parseLitCS_sound hc
                have hs4 : s4 = String.toList "/api" ++ (q3 :: (',' :: s7)) :=
                  parseLitCS_sound ha
                have hws := takeRun_sound isWsChar s7
                rw [hw] at hws
                generalize hg1 : (takeRun isWsChar s7).1 = w1 at hws ⊢
                rw [hs1, hs2, hs4, hws]
                simp
              · refine ⟨meth, [(['(', q1], String.toList ".concat("),
                  ([q2], String.toList "/api"), ([q3], [','])],
                  (takeRun isWsChar s7).1 ++ [q4],
                  String.toList "(\"\".concat(\"" ++
                    (pfx ++ (String.toList "/api" ++ ('\"' :: q3 :: ',' ::
                      ((takeRun isWsChar s7).1 ++ [q4])))), ?_, ?_,
                  sepOk_snoc (ws_run_bad s7) (quote_not_good hq4), ?_⟩
                · simp [runsGlue, List.append_assoc]
                · simp [List.append_assoc]
                · have hL : String.toList "(\"\".concat(\"" =
                      ['(', dq, dq] ++ (String.toList ".concat(" ++ [dq]) := by decide
                  intro p hp2
                  rcases List.mem_cons.mp hp2 with hp2 | hp2
                  · subst hp2
                    refine ⟨⟨by simp, ?_⟩, ?_⟩
                    · intro c hc2
                      rcases List.mem_cons.mp hc2 with hcc | hcc
                      · subst hcc
                        exact oparen_not_good
                      · rw [List.mem_singleton] at hcc
                        subst hcc
                        exact quote_not_good hq1
                    · exact containsSub_iff.mpr ⟨meth ++ ['(', dq, dq],
                        [dq] ++ (pfx ++ (String.toList "/api" ++ ('\"' :: q3 :: ',' ::
                          ((takeRun isWsChar s7).1 ++ [q4])))),
                        by rw [hL]; simp [List.append_assoc]⟩
                  rcases List.mem_cons.mp hp2 with hp2 | hp2
                  · subst hp2
                    refine ⟨sepOk_one (quote_not_good hq2), ?_⟩
                    exact containsSub_iff.mpr
                      ⟨meth ++ String.toList "(\"\".concat(\"" ++ pfx,
                        '\"' :: q3 :: ',' :: ((takeRun isWsChar s7).1 ++ [q4]),
                        by simp [List.append_assoc]⟩
                  · rw [List.mem_singleton] at hp2
                    subst hp2
                    refine ⟨sepOk_one (quote_not_good hq3), ?_⟩
                    exact containsSub_iff.mpr
                      ⟨meth ++ String.toList "(\"\".concat(\"" ++ pfx ++
                        String.toList "/api" ++ ['\"', q3],
                        (takeRun isWsChar s7).1 ++ [q4],
                        by simp [List.append_assoc]⟩

/-- Soundness of the query-and-closing-quote parser of asset js rule 8:
what it consumes is the query followed by a quote, and the closing
character is a quote. -/
theorem tryAssetQuery_sound {s qq : List Char} {q2 : Char} {s2 : List Char}
    (h : tryAssetQuery s = some (qq, q2, s2)) :
    s = qq ++ q2 :: s2 ∧ isQuote q2 = true := by
  unfold tryAssetQuery at h
  split at h
  · rename_i s1
    dsimp only at h
    cases hfs : (splitsDesc (takeRun (fun c => c != '\"') s1).1).findSome? (fun pr =>
        match pr.2 ++ (takeRun (fun c => c != '\"') s1).2 with
        | q2 :: s2 => if isQuote q2 then some ('?' :: pr.1, q2, s2) else none
        | [] => none) with
    | none =>
      rw [hfs] at h
      dsimp only at h
      rw [if_neg (show ¬ isQuote '?' = true by decide)] at h
      exact absurd h (by simp)
    | some res =>
      rw [hfs] at h
      dsimp only at h
      injection h with h
      subst h
      obtain ⟨pr, hprmem, hpr⟩ := List.exists_of_findSome?_eq_some hfs
      split at hpr
      rotate_left
      · exact absurd hpr (by simp)
      rename_i q2x s2x heq
      by_cases hq2 : isQuote q2x = true
      swap
      · rw [if_neg hq2] at hpr
        exact absurd hpr (by simp)
      rw [if_pos hq2] at hpr
      injection hpr with hpr
      rw [Prod.mk.injEq, Prod.mk.injEq] at hpr
      obtain ⟨h1, h2, h3⟩ := hpr
      subst h1
      subst h2
      subst h3
      refine ⟨?_, hq2⟩
      have hr := takeRun_sound (fun c => c != '\"') s1
      have hpr12 := splitsDesc_mem hprmem
      generalize hg1 : (takeRun (fun c => c != '\"') s1).1 = R1 at hr hpr12 ⊢
      generalize hg2 : (takeRun (fun c => c != '\"') s1).2 = R2 at hr heq ⊢
      have hfin : s1 = pr.1 ++ (q2x :: s2x) := by
        rw [hr, ← hpr12, List.append_assoc, heq]
      rw [hfin]
      simp
  · rename_i q2x s2x hne
    by_cases hq2 : isQuote q2x = true
    swap
    · rw [if_neg hq2] at h
      exact absurd h (by simp)
    rw [if_pos hq2] at h
    injection h with h
    rw [Prod.mk.injEq, Prod.mk.injEq] at h
    obtain ⟨h1, h2, h3⟩ := h
    subst h1
    subst h2
    subst h3
    exact ⟨rfl, hq2⟩
  · exact absurd h (by simp)

/-- Asset js rule 8 is well-shaped: the quoted path together with its
query stays contiguous in the replacement. -/
theorem tryRootAsset_ok (pfx : List Char) :
    MatcherRunsOk (fun s => tryRootAsset pfx s) := by
  intro s matched repl rest h
  have h : tryRootAsset pfx s = some (matched, repl, rest) := h
  unfold tryRootAsset at h
  split at h
  rotate_left
  · exact absurd h (by simp)
  rename_i q s1 ax
  by_cases hq : isQuote q = true
  swap
  · rw [if_neg hq] at h
    exact absurd h (by simp)
  rw [if_pos hq] at h
  dsimp only at h
  obtain ⟨pr, hprmem, hpr⟩ := List.exists_of_findSome?_eq_some h
  try dsimp only at hpr
  split at hpr
  rotate_left
  · exact absurd hpr (by simp)
  rename_i s2 heqdot
  by_cases hemp : pr.1.isEmpty = true
  · rw [if_pos hemp] at hpr
    exact absurd hpr (by simp)
  rw [if_neg hemp] at hpr
  obtain ⟨ext, hextmem, hext⟩ := List.exists_of_findSome?_eq_some hpr
  cases hpe : parseLitCS ext s2 with
  | none => rw [hpe] at hext; exact absurd hext (by simp)
  | some s3 =>
    rw [hpe] at hext
    dsimp only at hext
    cases hq2m : tryAssetQuery s3 with
    | none => rw [hq2m] at hext; exact absurd hext (by simp)
    | some trip =>
      obtain ⟨qq, rr⟩ := trip
      obtain ⟨q2, s4⟩ := rr
      rw [hq2m] at hext
      dsimp only at hext
      injection hext with hext
      rw [Prod.mk.injEq, Prod.mk.injEq] at hext
      obtain ⟨h1, h2, h3⟩ := hext
      subst h1
      subst h2
      subst h3
      obtain ⟨hqs, hq2q⟩ := tryAssetQuery_sound hq2m
      constructor
      · have hr := takeRun_sound fnameClass s1
        have hpr12 := splitsDesc_mem hprmem
        have hs2 : s2 = ext ++ s3 := parseLitCS_sound hpe
        generalize hg1 : (takeRun fnameClass s1).1 = R1 at hr hpr12 ⊢
        generalize hg2 : (takeRun fnameClass s1).2 = R2 at hr heqdot ⊢
        have hfin : s1 = pr.1 ++ ('.' :: (ext ++ (qq ++ q2 :: s4))) := by
          rw [hr, ← hpr12, List.append_assoc, heqdot, hs2, hqs]
        rw [hfin]
        simp
      · by_cases hg : startsWithCS (String.toList "/vpn/")
            ('/' :: (pr.1 ++ '.' :: ext)) = true
        · rw [if_pos hg]
          refine ⟨[], [([q], '/' :: (pr.1 ++ '.' :: ext) ++ qq)], [q2],
            q :: ('/' :: (pr.1 ++ '.' :: ext) ++ qq) ++ [q2], ?_, by simp,
            sepOk_one (quote_not_good hq2q), ?_⟩
          · simp [runsGlue, List.append_assoc]
          · intro p hp2
            rw [List.mem_singleton] at hp2
            subst hp2
            refine ⟨sepOk_one (quote_not_good hq), ?_⟩
            exact containsSub_iff.mpr ⟨[q], [q2], by simp [List.append_assoc]⟩
        · rw [if_neg hg]
          refine ⟨[], [([q], '/' :: (pr.1 ++ '.' :: ext) ++ qq)], [q2],
            dq :: (pfx ++ ('/' :: (pr.1 ++ '.' :: ext) ++ qq)) ++ [dq], ?_, by simp,
            sepOk_one (quote_not_good hq2q), ?_⟩
          · simp [runsGlue, List.append_assoc]
          · intro p hp2
            rw [List.mem_singleton] at hp2
            subst hp2
            refine ⟨sepOk_one (quote_not_good hq), ?_⟩
            exact containsSub_iff.mpr ⟨[dq] ++ pfx, [dq], by simp [List.append_assoc]⟩

/-- The css url rule is well-shaped: the url head survives and the
captured path stays contiguous in the replacement. -/
theorem tryCssUrl_ok (pfx : List Char) :
    MatcherRunsOk (fun s => tryCssUrl pfx s) := by
  intro s matched repl rest h
  have h : tryCssUrl pfx s = some (matched, repl, rest) := h
  unfold tryCssUrl at h
  cases hp : parseLitCS (String.toList "url(") s with
  | none => rw [hp] at h; exact absurd h (by simp)
  | some s1 =>
    rw [hp] at h
    dsimp only at h
    cases hqo : (match s1 with
        | c :: t => if isQuote c then some ([c], t) else some (([] : List Char), s1)
        | [] => some (([] : List Char), s1)) with
    | none => rw [hqo] at h; exact absurd h (by simp)
    | some pr =>
      obtain ⟨qo, s2⟩ := pr
      rw [hqo] at h
      dsimp only at h
      have hside : s1 = qo ++ s2 ∧ ∀ c ∈ qo, goodSubChar c = false := by
        cases s1 with
        | nil =>
          dsimp only at hqo
          injection hqo with hqo
          rw [Prod.mk.injEq] at hqo
          rw [← hqo.1, ← hqo.2]
          exact ⟨rfl, by simp⟩
        | cons c t =>
          dsimp only at hqo
          by_cases hc : isQuote c = true
          · rw [if_pos hc] at hqo
            injection hqo with hqo
            rw [Prod.mk.injEq] at hqo
            rw [← hqo.1, ← hqo.2]
            refine ⟨rfl, ?_⟩
            intro x hx
            rw [List.mem_singleton] at hx
            subst hx
            exact quote_not_good hc
          · rw [if_neg hc] at hqo
            injection hqo with hqo
            rw [Prod.mk.injEq] at hqo
            rw [← hqo.1, ← hqo.2]
            exact ⟨rfl, by simp⟩
      split at h
      rotate_left
      · exact absurd h (by simp)
      rename_i s3
      by_cases hemp : (takeRun cssPathClass s3).1.isEmpty = true
      · rw [if_pos hemp] at h
        exact absurd h (by simp)
      rw [if_neg hemp] at h
      cases hfin : (match (takeRun cssPathClass s3).2 with
          | ')' :: s4 => some (([] : List Char), s4)
          | c :: ')' :: s4 => if isQuote c then some ([c], s4) else none
          | _ => none) with
      | none => rw [hfin] at h; exact absurd h (by simp)
      | some pr2 =>
        obtain ⟨qc, s4⟩ := pr2
        rw [hfin] at h
        dsimp only at h
        have hside2 : (takeRun cssPathClass s3).2 = qc ++ ')' :: s4 ∧
            ∀ c ∈ qc, goodSubChar c = false := by
          split at hfin
          · injection hfin with hfin
            rw [Prod.mk.injEq] at hfin
            rw [← hfin.1, ← hfin.2]
            rename_i s4x heqf
            rw [heqf]
            exact ⟨rfl, by simp⟩
          · rename_i axx cx s4x heqf
            by_cases hcx : isQuote axx = true
            · rw [if_pos hcx] at hfin
              injection hfin with hfin
              rw [Prod.mk.injEq] at hfin
              rw [← hfin.1, ← hfin.2]
              rw [heqf]
              refine ⟨rfl, ?_⟩
              intro x hx
              rw [List.mem_singleton] at hx
              subst hx
              exact quote_not_good hcx
            · rw [if_neg hcx] at hfin
              exact absurd hfin (by simp)
          · exact absurd hfin (by simp)
        injection h with h
        rw [Prod.mk.injEq, Prod.mk.injEq] at h
        obtain ⟨h1, h2, h3⟩ := h
        subst h1
        subst h2
        subst h3
        constructor
        · have hs : s = String.toList "url(" ++ s1 := parseLitCS_sound hp
          have hr := takeRun_sound cssPathClass s3
          generalize hg1 : (takeRun cssPathClass s3).1 = R1 at hr ⊢
          generalize hg2 : (takeRun cssPathClass s3).2 = R2 at hr hside2 ⊢
          have hfin2 : s1 = qo ++ ('/' :: (R1 ++ (qc ++ ')' :: s4))) := by
            rw [hside.1, hr, hside2.1]
          rw [hs, hfin2]
          simp
        · have hNf : SepOk (qc ++ [')']) := by
            refine ⟨by simp, ?_⟩
            intro c hc
            rcases List.mem_append.mp hc with hcc | hcc
            · exact hside2.2 c hcc
            · rw [List.mem_singleton] at hcc
              subst hcc
              exact cparen_not_good
          have hsep : SepOk (['('] ++ qo) := by
            refine ⟨by simp, ?_⟩
            intro c hc
            rcases List.mem_append.mp hc with hcc | hcc
            · rw [List.mem_singleton] at hcc
              subst hcc
              exact oparen_not_good
            · exact hside.2 c hcc
          by_cases hg : (startsWithCS (String.toList "/vpn/")
              ('/' :: (takeRun cssPathClass s3).1)
              || startsWithCS (String.toList "http")
                ('/' :: (takeRun cssPathClass s3).1)) = true
          · rw [if_pos hg]
            refine ⟨String.toList "url", [(['('] ++ qo,
              '/' :: (takeRun cssPathClass s3).1)], qc ++ [')'],
              '(' :: (qo ++ ('/' :: (takeRun cssPathClass s3).1 ++ (qc ++ [')']))),
              ?_, ?_, hNf, ?_⟩
            · simp [runsGlue, List.append_assoc]
            · simp [List.append_assoc]
            · intro p hp2
              rw [List.mem_singleton] at hp2
              subst hp2
              refine ⟨hsep, ?_⟩
              exact containsSub_iff.mpr ⟨String.toList "url(" ++ qo, qc ++ [')'],
                by simp [List.append_assoc]⟩
          · rw [if_neg hg]
            refine ⟨String.toList "url", [(['('] ++ qo,
              '/' :: (takeRun cssPathClass s3).1)], qc ++ [')'],
              '(' :: dq :: (pfx ++ ('/' :: (takeRun cssPathClass s3).1 ++ [dq, ')'])),
              ?_, ?_, hNf, ?_⟩
            · simp [runsGlue, List.append_assoc]
            · simp [dq, List.append_assoc]
            · intro p hp2
              rw [List.mem_singleton] at hp2
              subst hp2
              refine ⟨hsep, ?_⟩
              exact containsSub_iff.mpr ⟨String.toList "url(\"" ++ pfx,
                String.toList "\")", by simp [dq, List.append_assoc]⟩

/-- Concrete body for the preservation witness: an external https image
URL and a relative link, with no websocket URL. -/
def c3WitBody : List Char :=
  String.toList "<img src=\"https://external.example/x.png\"> <a href=\"a.html\">"

/-- The external URL whose occurrences the witness tracks. -/
def c3WitPat : List Char := String.toList "https://external.example/x.png"

/-- Concrete js asset content for the preservation witness: an /api
path the js rules rewrite next to the external URL. -/
def c3WitJs : List Char :=
  String.toList "fetch(\"/api/health\"); u = \"https://external.example/x.png\";"

/-- Concrete css asset content for the preservation witness: a rewritten
url() path next to the external URL. -/
def c3WitCss : List Char :=
  String.toList "url(/img/bg.png); x: https://external.example/x.png;"

/-- C3: amended claim.  Both cited rewriters preserve every occurrence
of a substring free of quotes, whitespace and parentheses - in
particular absolute external http(s) URLs, protocol-relative URLs and
plain data URIs - in every rewritten position except the websocket
rule: the devices branch of rewriteContent preserves such substrings
whenever its websocket rule finds no match in the body handed to it by
the earlier rules, and rewriteAssetContent (the js rules and the css
url rule alike) preserves them unconditionally.  The websocket
exception is genuine: that rule rewrites the host of matching ws/wss
URLs destructively (see the counterexample). -/
theorem c3_external_url_preservation (pat : List Char)
    (hgood : ∀ c ∈ pat, goodSubChar c = true) :
    (∀ siteName host body,
      matcherFires (wsMatcher host (devicesPfx siteName))
        (devicesPreWs siteName body) = false →
      containsSub pat body = true →
      containsSub pat (rewriteContentDevices siteName host body) = true) ∧
    (∀ content siteName fileType,
      containsSub pat content = true →
      containsSub pat (rewriteAssetContent content siteName fileType) = true) := by
  have pres : ∀ (m : Matcher), MatcherRunsOk m → ∀ t, containsSub pat t = true →
      containsSub pat (runRule m t) = true := by
    intro m hm t ht
    exact scan_preserves m hm t.length pat t hgood (Nat.le_refl _) ht
  constructor
  · intro siteName host body hws hcontains
    have h1 := pres _
      (matcherRunsOk_of_ok
        (attrMatcher_ok (String.toList "href") laHref guardHref (devicesPfx siteName)))
      body hcontains
    have h2 := pres _
      (matcherRunsOk_of_ok
        (attrMatcher_ok (String.toList "src") laSrc guardSrc (devicesPfx siteName))) _ h1
    have h3 := pres _
      (matcherRunsOk_of_ok
        (attrMatcher_ok (String.toList "action") laAction guardAction (devicesPfx siteName)))
      _ h2
    have h4 := pres _ (matcherRunsOk_of_ok (iframeMatcher_ok (devicesPfx siteName))) _ h3
    have h4b : containsSub pat (devicesPreWs siteName body) = true := by
      unfold devicesPreWs
      exact h4
    have h5 : containsSub pat
        (runRule (wsMatcher host (devicesPfx siteName)) (devicesPreWs siteName body)) = true := by
      rw [runRule_id_of_no_fire hws]
      exact h4b
    have h6 := pres _ (matcherRunsOk_of_ok (fetchMatcher_ok (devicesPfx siteName))) _ h5
    unfold rewriteContentDevices
    exact h6
  · intro content siteName fileType hcontains
    unfold rewriteAssetContent
    by_cases hjs : fileType = String.toList "js"
    · rw [if_pos hjs]
      exact pres _ (tryRootAsset_ok (assetPfx siteName)) _
        (pres _ (tryUrlConfig_ok (assetPfx siteName)) _
          (pres _ (tryFetchDirect_ok (assetPfx siteName)) _
            (pres _ (tryQuotedPath_ok (assetPfx siteName) (String.toList "/static/")) _
              (pres _ (tryQuotedPath_ok (assetPfx siteName) (String.toList "/api/")) _
                (pres _ (tryFetchConcat_ok (assetPfx siteName)) _
                  (pres _ (tryConcatApi_ok (assetPfx siteName)) _
                    (pres _ (tryBaseUrl_ok (assetPfx siteName)) _ hcontains)))))))
    · rw [if_neg hjs]
      by_cases hcss : fileType = String.toList "css"
      · rw [if_pos hcss]
        exact pres _ (tryCssUrl_ok (assetPfx siteName)) _ hcontains
      · rw [if_neg hcss]
        exact hcontains

/-- C3 witness: the external https URL survives the full devices
rewrite of a concrete html body (where the websocket rule does not
fire), the full js asset rewrite (which rewrites the neighbouring /api
path) and the css asset rewrite (which rewrites the neighbouring url()
path). -/
theorem c3_witness :
    containsSub c3WitPat
      (rewriteContentDevices (String.toList "site1") (String.toList "gw.example")
        c3WitBody) = true ∧
    containsSub c3WitPat
      (rewriteAssetContent c3WitJs (String.toList "site1") (String.toList "js")) = true ∧
    containsSub c3WitPat
      (rewriteAssetContent c3WitCss (String.toList "site1") (String.toList "css")) = true :=
  ⟨(c3_external_url_preservation c3WitPat (by decide)).1 (String.toList "site1")
      (String.toList "gw.example") c3WitBody (by decide) (by decide),
   (c3_external_url_preservation c3WitPat (by decide)).2 c3WitJs (String.toList "site1")
      (String.toList "js") (by decide),
   (c3_external_url_preservation c3WitPat (by decide)).2 c3WitCss (String.toList "site1")
      (String.toList "css") (by decide)⟩

end NeoProxy
